import Mathlib

/-!
# Verification of the finance-tracker core against its specification

Shallow embedding of the repository's core subsystems:

* the Ledger Journal (`app/services/ledger_service.py`, `LedgerService.record_transaction`),
* the Spend Aggregator (`app/routers/budgets.py`, `get_spending_for_category`),
* the Budget Rollover Engine (`app/routers/budgets.py`, `calculate_rollover_amount`,
  `_perform_rollover_recalculation`, `invalidate_rollover_chain`).

Modelling conventions:

* Python `float` amounts are embedded as exact rationals (`ℚ`); the source's
  literal thresholds `0.0001` and `0.01` become `1/10000` and `1/100`.
* Database rows are Lean structures, the store is lists of rows; a SQLAlchemy
  session is a pair (committed state, current state): `flush` makes a pending
  change visible to subsequent queries of the same session (our "current"
  state already is), `commit` copies current into committed, `rollback`
  copies committed into current.
* `datetime` values are wall-clock instants `t : ℤ` (a strictly monotone
  encoding of (year, month, day, second-of-day)) plus an awareness flag;
  `replace(tzinfo=utc)` keeps the wall-clock fields and sets the flag.
* Budget months are stored by the source as zero-padded `"YYYY-MM"` strings
  and compared with SQL string comparison; the embedding carries the
  structured pair `YM` and compares it by the key `year * 100 + month`.
  For four-digit years the rendered strings have a fixed width with the
  most significant digit first, and fixed-width decimal numerals compare
  lexicographically exactly as the numbers they denote, so the key order
  is the string order the database uses.
* Fallible Python code (a `raise` crossing a function boundary) is embedded
  with `Except`; a caught exception is a `match` on the `Except` value.
-/

namespace FinanceTracker

/-! ## Months (`"YYYY-MM"` strings in the source) -/

/-- A budget month: the parsed form of a `"YYYY-MM"` string
(`year, month = map(int, year_month.split('-'))`, Python `int`s). -/
structure YM where
  year : ℤ
  month : ℤ
deriving Repr, DecidableEq

/-- Numeric key giving the chronological order of months; for four-digit
years it agrees with lexicographic comparison of the zero-padded
`"YYYY-MM"` strings (fixed-width numerals compare as their values). -/
def ymKey (a : YM) : ℤ := a.year * 100 + a.month

/-- The source's `Budget.year_month > changed_month` string comparison,
embedded through `ymKey`. -/
def ymLtB (a b : YM) : Bool := ymKey a < ymKey b

/-- `if month == 1: (year-1, 12) else (year, month-1)` — the previous
month with year wraparound at January, as computed in
`calculate_rollover_amount` and `_perform_rollover_recalculation`. -/
def prevMonth (c : YM) : YM :=
  if c.month = 1 then ⟨c.year - 1, 12⟩ else ⟨c.year, c.month - 1⟩

/-! ## Datetimes -/

/-- A `datetime`: a wall-clock instant together with the tzinfo-awareness
flag. `t` is a strictly monotone encoding of the wall-clock fields. -/
structure DT where
  t : ℤ
  aware : Bool
deriving Repr, DecidableEq

/-- `d.replace(tzinfo=timezone.utc)` applied only when `d.tzinfo is None`:
the wall-clock fields are kept, the flag becomes set. -/
def DT.normalize (d : DT) : DT := if d.aware then d else ⟨d.t, true⟩

/-- `calendar.monthrange(year, month)[1]`: the number of days in a month,
including the leap-year rule for February. -/
def daysInMonth (y m : ℤ) : ℤ :=
  if m = 2 then (if y % 4 = 0 ∧ (y % 100 ≠ 0 ∨ y % 400 = 0) then 29 else 28)
  else if m = 4 ∨ m = 6 ∨ m = 9 ∨ m = 11 then 30
  else 31

/-- Monotone encoding of wall-clock fields (y, m, d, second-of-day) into a
single integer instant. -/
def encDT (y m d s : ℤ) : ℤ := ((y * 100 + m) * 100 + d) * 100000 + s

/-- `calculate_month_dates`: the timezone-aware first instant and last
instant (23:59:59) of a month. -/
def calculate_month_dates (ym : YM) : DT × DT :=
  (⟨encDT ym.year ym.month 1 0, true⟩,
   ⟨encDT ym.year ym.month (daysInMonth ym.year ym.month) 86399, true⟩)

/-! ## Ledger Journal (`app/services/ledger_service.py`) -/

/-- One element of `entries_data`: `{account_id, amount}`. -/
structure EntryInput where
  account_id : String
  amount : ℚ
deriving Repr, DecidableEq

/-- A persisted `LedgerTransaction` row (fields as constructed by
`LedgerService.record_transaction`). -/
structure LedgerTransaction where
  id : Nat
  owner_id : String
  description : String
  date : ℤ
deriving Repr, DecidableEq

/-- A persisted `Entry` row (fields as constructed by
`LedgerService.record_transaction`). -/
structure Entry where
  transaction_id : Nat
  account_id : String
  amount : ℚ
deriving Repr, DecidableEq

/-- The ledger tables plus an id generator for new transaction rows. -/
structure LedgerDB where
  nextId : Nat
  transactions : List LedgerTransaction
  entries : List Entry
deriving Repr, DecidableEq

/-- `LedgerService.record_transaction(owner_id, description, date,
entries_data)`: raises `ValueError` when `abs(sum(amounts)) > 0.0001`,
otherwise inserts the transaction row and one entry row per input and
commits once. The successful result also carries the new transaction id. -/
def record_transaction (db : LedgerDB) (owner_id description : String)
    (date : ℤ) (entries_data : List EntryInput) :
    Except String (LedgerDB × Nat) :=
  let total : ℚ := (entries_data.map (·.amount)).sum
  if |total| > 1 / 10000 then
    .error "Transaction not balanced"
  else
    let tid := db.nextId
    let txn : LedgerTransaction := ⟨tid, owner_id, description, date⟩
    let newEntries := entries_data.map fun e => Entry.mk tid e.account_id e.amount
    .ok ({ nextId := db.nextId + 1,
           transactions := db.transactions ++ [txn],
           entries := db.entries ++ newEntries }, tid)

/-! ## Legacy `Transaction` rows and the Spend Aggregator -/

/-- A legacy `Transaction` row (the fields read by
`get_spending_for_category`). -/
structure Transaction where
  user_id : String
  category_id : String
  amount : ℚ
  occurred_on : DT
  is_deleted : Bool
deriving Repr, DecidableEq

/-- The row filter of `get_spending_for_category`'s query: same user, same
category, `occurred_on` within the (normalized) inclusive bounds,
`amount < 0`, not deleted. -/
def spendMatches (user_id category_id : String) (s e : DT) (t : Transaction) : Bool :=
  t.user_id == user_id && t.category_id == category_id &&
  decide (s.t ≤ t.occurred_on.t) && decide (t.occurred_on.t ≤ e.t) &&
  decide (t.amount < 0) && !t.is_deleted

/-- `get_spending_for_category(db, user_id, category_id, start_date,
end_date)`: normalizes naive bounds to UTC, sums the amounts of the
matching expense rows and returns the absolute value of the sum. -/
def get_spending_for_category (txns : List Transaction)
    (user_id category_id : String) (start_date end_date : DT) : ℚ :=
  |((txns.filter
      (spendMatches user_id category_id start_date.normalize end_date.normalize)).map
    (·.amount)).sum|

/-! ## Budget store (`app/models.py`) -/

/-- A `CategoryBudget` row. `rollover_amount` is nullable in the schema
(`Column(Float, default=0.0)`), and the source reads it through
`... or 0.0`, so it is embedded as `Option ℚ`. -/
structure CategoryBudget where
  category_id : String
  budget_amount : ℚ
  rollover_enabled : Bool
  rollover_amount : Option ℚ
deriving Repr, DecidableEq

/-- A `Budget` row together with its `category_limits` relationship. -/
structure Budget where
  id : Nat
  user_id : String
  year_month : YM
  rollover_needs_recalc : Bool
  rollover_last_calculated : Option ℤ
  category_limits : List CategoryBudget
deriving Repr, DecidableEq

/-- A `RolloverCalculation` history row, as inserted by
`record_rollover_calculation`. -/
structure RolloverCalculation where
  budget_id : Nat
  category_id : String
  rollover_amount : ℚ
  source_month : YM
  calculation_reason : String
  base_budget : ℚ
  prev_rollover : ℚ
  effective_budget : ℚ
  spent_amount : ℚ
deriving Repr, DecidableEq

/-- The relational store read and written by the rollover engine. -/
structure Store where
  budgets : List Budget
  transactions : List Transaction
  rollover_calculations : List RolloverCalculation
deriving Repr, DecidableEq

/-- `db.query(Budget).filter(user_id == uid, year_month == ym).first()`. -/
def findBudget (s : Store) (uid : String) (ym : YM) : Option Budget :=
  s.budgets.find? fun b => b.user_id == uid && b.year_month == ym

/-! ## `calculate_rollover_amount` -/

/-- The value returned by `calculate_rollover_amount`. The source returns a
bare float `0.0` from its two base cases (previous budget or previous
category budget absent) but a 5-tuple
`(rollover, base_budget, prev_rollover, effective_budget, spent_amount)`
from the main path, so the embedded result distinguishes the two shapes. -/
inductive CalcResult where
  | scalar (v : ℚ)
  | tuple (rollover base_budget prev_rollover effective_budget spent_amount : ℚ)
deriving Repr, DecidableEq

/-- `calculate_rollover_amount(db, user_id, category_id, current_month)`.
The surrounding `try/except` never fires in the embedding (every step of
the body is total), so only the explicit returns appear. -/
def calculate_rollover_amount (s : Store) (user_id category_id : String)
    (current_month : YM) : CalcResult :=
  match findBudget s user_id (prevMonth current_month) with
  | none => .scalar 0
  | some prev_budget =>
    match prev_budget.category_limits.find? (fun cb => cb.category_id == category_id) with
    | none => .scalar 0
    | some prev_category_budget =>
      let spent_amount :=
        get_spending_for_category s.transactions user_id category_id
          (calculate_month_dates (prevMonth current_month)).1
          (calculate_month_dates (prevMonth current_month)).2
      let prev_effective_budget :=
        prev_category_budget.budget_amount + (prev_category_budget.rollover_amount.getD 0)
      let difference := prev_effective_budget - spent_amount
      let rollover_amount : ℚ :=
        if difference > 0 ∧ prev_category_budget.rollover_enabled then difference
        else if difference < 0 ∧ prev_category_budget.rollover_enabled then difference
        else 0
      .tuple rollover_amount prev_category_budget.budget_amount
        (prev_category_budget.rollover_amount.getD 0) prev_effective_budget spent_amount

/-! ## Store updates used by the recalculation -/

/-- Update the budget row with id `bid` in place (attribute assignment on a
fetched ORM object). -/
def mapBudget (s : Store) (bid : Nat) (f : Budget → Budget) : Store :=
  { s with budgets := s.budgets.map fun b => if b.id == bid then f b else b }

/-- Assignment to the `idx`-th element of a category-limit list. -/
def setRollover : List CategoryBudget → Nat → ℚ → List CategoryBudget
  | [], _, _ => []
  | cb :: rest, 0, v => { cb with rollover_amount := some v } :: rest
  | cb :: rest, n + 1, v => cb :: setRollover rest n v

/-- `category_budget.rollover_amount = new_rollover` on the `idx`-th element
of the budget's `category_limits`. -/
def updateCBAt (s : Store) (bid : Nat) (idx : Nat) (v : ℚ) : Store :=
  mapBudget s bid fun b =>
    { b with category_limits := setRollover b.category_limits idx v }

/-- `record_rollover_calculation`: appends a history row (its internal
`try/except` only logs, never raises). -/
def addHist (s : Store) (row : RolloverCalculation) : Store :=
  { s with rollover_calculations := s.rollover_calculations ++ [row] }

/-- `budget.rollover_needs_recalc = flag` on the budget with id `bid`. -/
def setNeedsRecalc (s : Store) (bid : Nat) (flag : Bool) : Store :=
  mapBudget s bid fun b => { b with rollover_needs_recalc := flag }

/-- `budget.rollover_last_calculated = now; budget.rollover_needs_recalc
= flag` on the budget with id `bid`. -/
def setBudgetFlags (s : Store) (bid : Nat) (now : ℤ) (flag : Bool) : Store :=
  mapBudget s bid fun b =>
    { b with rollover_last_calculated := some now, rollover_needs_recalc := flag }

/-! ## `_perform_rollover_recalculation` -/

/-- The body of the `for category_budget in budget.category_limits` loop of
`_perform_rollover_recalculation`, iterating positionally over the fetched
category rows while the store evolves. Unpacking the 5-tuple fails with a
`TypeError` when `calculate_rollover_amount` returned a bare float; the
error aborts the loop (the exception propagates to the enclosing `try`). -/
def processCats (uid : String) (ym : YM) (bid : Nat) (reason : String) :
    Store → List CategoryBudget → Nat → Except Unit Store
  | s, [], _ => .ok s
  | s, cb :: rest, idx =>
    match calculate_rollover_amount s uid cb.category_id ym with
    | .scalar _ => .error ()
    | .tuple new_rollover base_budget prev_rollover effective_budget spent_amount =>
      let old_rollover := cb.rollover_amount.getD 0
      if |new_rollover - old_rollover| > 1 / 100 then
        let s' := updateCBAt s bid idx new_rollover
        let s'' := addHist s' ⟨bid, cb.category_id, new_rollover, prevMonth ym, reason,
          base_budget, prev_rollover, effective_budget, spent_amount⟩
        processCats uid ym bid reason s'' rest (idx + 1)
      else
        processCats uid ym bid reason s rest (idx + 1)

/-- A SQLAlchemy session: the committed database state and the state the
session currently sees (committed plus flushed-but-uncommitted changes). -/
structure DB where
  committed : Store
  current : Store
deriving Repr, DecidableEq

/-- `_perform_rollover_recalculation(db, user_id, year_month, reason)`:
fetches the budget (no change when absent), runs the category loop, sets
the budget's rollover flags and commits; on any error inside the loop it
rolls the session back and re-raises. -/
def perform_rollover_recalculation (db : DB) (uid : String) (ym : YM)
    (now : ℤ) (reason : String) : Except DB DB :=
  match findBudget db.current uid ym with
  | none => .ok db
  | some budget =>
    match processCats uid ym budget.id reason db.current budget.category_limits 0 with
    | .error _ => .error ⟨db.committed, db.committed⟩
    | .ok s =>
      let s' := setBudgetFlags s budget.id now false
      .ok ⟨s', s'⟩

/-! ## `invalidate_rollover_chain` -/

/-- Insertion of a pair into a list sorted ascending by `ymLtB` on the
month component (`insert` keeps earlier elements first on ties). -/
def insertByYm (p : Nat × YM) : List (Nat × YM) → List (Nat × YM)
  | [] => [p]
  | q :: rest => if ymLtB q.2 p.2 then q :: insertByYm p rest else p :: q :: rest

/-- Ascending sort by month (`.order_by(Budget.year_month)`), as a
structurally recursive insertion sort. -/
def sortByYm : List (Nat × YM) → List (Nat × YM)
  | [] => []
  | p :: rest => insertByYm p (sortByYm rest)

/-- The query at the head of `invalidate_rollover_chain`: the (id, month)
pairs of the user's budgets with `year_month > changed_month`, ordered
ascending by month. Only the id and the month of each fetched row are used
by the loop, so the projection is done before sorting. -/
def chainList (s : Store) (uid : String) (changed_month : YM) : List (Nat × YM) :=
  sortByYm (((s.budgets.filter fun b =>
    b.user_id == uid && ymLtB changed_month b.year_month).map
      fun b => (b.id, b.year_month)))

/-- One iteration of the `for budget in budgets_to_recalc` loop: set
`rollover_needs_recalc = True`, flush, recalculate; on failure roll back,
re-fetch the budget by id and set the flag again. -/
def chainStep (uid : String) (now : ℤ) (reason : String) (db : DB)
    (p : Nat × YM) : DB :=
  let db₁ : DB := ⟨db.committed, setNeedsRecalc db.current p.1 true⟩
  match perform_rollover_recalculation db₁ uid p.2 now reason with
  | .ok db' => db'
  | .error db' =>
    let c := db'.committed
    ⟨c, if c.budgets.any (·.id == p.1) then setNeedsRecalc c p.1 true else c⟩

/-- The body of `invalidate_rollover_chain` (everything inside its outer
`try`), ending with the final `db.commit()`. The walk is entered right
after a caller-side commit, so both session components start from `s`. -/
def invalidate_rollover_chain_body (s : Store) (uid : String)
    (changed_month : YM) (now : ℤ) (reason : String) : Except Unit Store :=
  let db := (chainList s uid changed_month).foldl (chainStep uid now reason) ⟨s, s⟩
  .ok db.current

/-- `invalidate_rollover_chain(db, user_id, changed_month, reason)`: the
outer `try/except` turns any escaped failure into a logged rollback, so the
function always returns a store to its caller. -/
def invalidate_rollover_chain (s : Store) (uid : String) (changed_month : YM)
    (now : ℤ) (reason : String) : Store :=
  match invalidate_rollover_chain_body s uid changed_month now reason with
  | .ok s' => s'
  | .error _ => s

/-! ## Supporting lemmas for the Spend Aggregator -/

/-- Rows passing the spend filter have strictly negative amounts
(the `Transaction.amount < 0` conjunct of the query). -/
theorem spendMatches_amount_neg {uid cid : String} {s e : DT} {t : Transaction}
    (h : spendMatches uid cid s e t = true) : t.amount < 0 := by
  simp only [spendMatches, Bool.and_eq_true, decide_eq_true_eq] at h
  exact h.1.2

theorem sum_filter_nonpos (l : List Transaction) (P : Transaction → Bool)
    (hP : ∀ t, P t = true → t.amount < 0) :
    ((l.filter P).map (·.amount)).sum ≤ 0 := by
  induction l with
  | nil => simp
  | cons t l ih =>
    by_cases h : P t = true
    · simp only [List.filter_cons, h, if_pos, List.map_cons, List.sum_cons]
      have := hP t h
      linarith
    · simp only [List.filter_cons, h, Bool.false_eq_true, if_neg, not_false_iff]
      simpa using ih

theorem abs_sum_filter_neg (l : List Transaction) (P : Transaction → Bool)
    (hP : ∀ t, P t = true → t.amount < 0) :
    |((l.filter P).map (·.amount)).sum| =
      (l.map fun t => if P t then -t.amount else 0).sum := by
  rw [abs_of_nonpos (sum_filter_nonpos l P hP)]
  induction l with
  | nil => simp
  | cons t l ih =>
    by_cases h : P t = true
    · simp only [List.filter_cons, h, if_pos, List.map_cons, List.sum_cons, neg_add, ih]
    · simp only [List.filter_cons, h, Bool.false_eq_true, if_neg, not_false_iff,
        List.map_cons, List.sum_cons]
      simpa using ih

/-! ## The Spend Aggregator as the specification states it (for C6)

The specification sentence says the aggregator "sums the signed amounts of
entries on `category_id` within `[start, end]`". The following definition
follows those words (signed sum over the category's non-deleted rows in the
range, no sign filter and no absolute value); it is compared against the
source's `get_spending_for_category` above. -/

/-- The claimed behaviour of the Spend Aggregator, following the spec's
words: the sum of the signed amounts of the category's recorded rows in the
inclusive range. -/
def spend_spec_signed_sum (txns : List Transaction) (uid cid : String)
    (sd ed : DT) : ℚ :=
  ((txns.filter fun t =>
      t.user_id == uid && t.category_id == cid &&
      decide (sd.normalize.t ≤ t.occurred_on.t) &&
      decide (t.occurred_on.t ≤ ed.normalize.t) && !t.is_deleted).map
    (·.amount)).sum

/-! ## Claim C1 — `record_transaction` balance check and atomicity -/

/-- C1: `record_transaction` rejects with a validation failure
(`ValueError("Transaction not balanced")`) and persists no transaction and
no entry rows whenever `|Σ amount| > 1e-4` (the error carries no new
state); otherwise it creates the transaction together with every one of its
entries in a single committed step, with no partial state. -/
theorem record_transaction_balanced_or_rejected (db : LedgerDB)
    (o d : String) (dt : ℤ) (ed : List EntryInput) :
    (|(ed.map (·.amount)).sum| > 1 / 10000 →
      record_transaction db o d dt ed = .error "Transaction not balanced") ∧
    (|(ed.map (·.amount)).sum| ≤ 1 / 10000 →
      record_transaction db o d dt ed =
        .ok ({ nextId := db.nextId + 1,
               transactions := db.transactions ++ [⟨db.nextId, o, d, dt⟩],
               entries := db.entries ++
                 ed.map fun e => Entry.mk db.nextId e.account_id e.amount },
             db.nextId)) := by
  constructor
  · intro h
    simp only [record_transaction, if_pos h]
  · intro h
    simp only [record_transaction, if_neg (not_lt.mpr h)]

/-- Witness for C1: a concrete unbalanced call (the spec's Scenario D
entries, summing to −5) is rejected, and a balanced variant is accepted
with both entries persisted. -/
theorem record_transaction_balanced_or_rejected_witness :
    record_transaction ⟨0, [], []⟩ "u" "dinner" 0
        [⟨"A", -50⟩, ⟨"B", 45⟩] = .error "Transaction not balanced" ∧
    record_transaction ⟨0, [], []⟩ "u" "dinner" 0
        [⟨"A", -50⟩, ⟨"B", 50⟩] =
      .ok ({ nextId := 1,
             transactions := [⟨0, "u", "dinner", 0⟩],
             entries := [⟨0, "A", -50⟩, ⟨0, "B", 50⟩] }, 0) :=
  ⟨(record_transaction_balanced_or_rejected ⟨0, [], []⟩ "u" "dinner" 0
      [⟨"A", -50⟩, ⟨"B", 45⟩]).1 (by norm_num),
   ((record_transaction_balanced_or_rejected ⟨0, [], []⟩ "u" "dinner" 0
      [⟨"A", -50⟩, ⟨"B", 50⟩]).2 (by norm_num)).trans (by norm_num)⟩

/-! ## Claim C8 — entry-count is not enforced -/

/-- Counterexample to C8: `record_transaction` performs no arity check, so
a call with a single zero-amount entry passes the balance test and persists
a `LedgerTransaction` owning exactly one `Entry` row — contradicting the
claim that no call can create a transaction with fewer than two entries. -/
theorem record_transaction_accepts_single_entry :
    record_transaction ⟨0, [], []⟩ "u" "d" 0 [⟨"A", 0⟩] =
      .ok ({ nextId := 1, transactions := [⟨0, "u", "d", 0⟩],
             entries := [⟨0, "A", 0⟩] }, 0) ∧
    (({ nextId := 1, transactions := [⟨0, "u", "d", 0⟩],
        entries := [⟨0, "A", 0⟩] } : LedgerDB).entries.filter
      (·.transaction_id == 0)).length = 1 := by
  constructor
  · simp only [record_transaction]
    norm_num
  · rfl

/-- C8 amended: `record_transaction` gates creation only on the balance
check — it succeeds exactly when `|Σ amount| ≤ 1e-4`, regardless of the
number of entries, and persists one `Entry` row per supplied entry (so a
transaction with zero or one entry can be created). -/
theorem record_transaction_isOk_iff_balanced (db : LedgerDB) (o d : String)
    (dt : ℤ) (ed : List EntryInput) :
    ((record_transaction db o d dt ed).isOk = true ↔
        |(ed.map (·.amount)).sum| ≤ 1 / 10000) ∧
    (∀ db' tid, record_transaction db o d dt ed = .ok (db', tid) →
        db'.entries.length = db.entries.length + ed.length) := by
  constructor
  · by_cases h : |(ed.map (·.amount)).sum| > 1 / 10000
    · simp only [record_transaction, if_pos h, Except.isOk, Except.toBool]
      constructor
      · intro hc
        exact absurd hc (by simp)
      · intro hle
        exact absurd h (not_lt.mpr hle)
    · simp only [record_transaction, if_neg h, Except.isOk, Except.toBool, true_iff]
      exact le_of_not_lt h
  · intro db' tid h
    by_cases hb : |(ed.map (·.amount)).sum| > 1 / 10000
    · rw [record_transaction] at h
      rw [if_pos hb] at h
      exact Except.noConfusion h
    · simp only [record_transaction, if_neg hb, Except.ok.injEq, Prod.mk.injEq] at h
      rw [← h.1]
      simp

/-- Witness for the amended C8: a concrete single-entry balanced call is
accepted and persists exactly one entry row. -/
theorem record_transaction_isOk_iff_balanced_witness :
    (record_transaction ⟨0, [], []⟩ "u" "d" 0 [⟨"A", 0⟩]).isOk = true ∧
    ({ nextId := 1, transactions := [⟨0, "u", "d", 0⟩],
       entries := [⟨0, "A", 0⟩] } : LedgerDB).entries.length =
      ([] : List Entry).length + 1 :=
  ⟨(record_transaction_isOk_iff_balanced ⟨0, [], []⟩ "u" "d" 0 [⟨"A", 0⟩]).1.mpr
      (by norm_num),
   (record_transaction_isOk_iff_balanced ⟨0, [], []⟩ "u" "d" 0 [⟨"A", 0⟩]).2
      ⟨1, [⟨0, "u", "d", 0⟩], [⟨0, "A", 0⟩]⟩ 0 (by norm_num [record_transaction])⟩

/-! ## Claim C6 — what the Spend Aggregator actually returns -/

/-- Counterexample to C6: on a store holding a single matching expense row
of amount −30, the aggregator returns 30 (the absolute value of the
expense sum) while the claimed "sum of the signed amounts" is −30, so the
claim as stated is false. -/
theorem get_spending_not_signed_sum :
    get_spending_for_category
        [⟨"u", "c", -30, ⟨5, true⟩, false⟩] "u" "c" ⟨0, true⟩ ⟨10, true⟩ = 30 ∧
    spend_spec_signed_sum
        [⟨"u", "c", -30, ⟨5, true⟩, false⟩] "u" "c" ⟨0, true⟩ ⟨10, true⟩ = -30 := by
  constructor <;>
    simp [get_spending_for_category, spend_spec_signed_sum, spendMatches, DT.normalize]

/-- C6 amended: after normalizing naive bounds to UTC, the aggregator
returns the absolute value of the sum of the strictly negative amounts of
the category's non-deleted rows in the inclusive range — equivalently, each
matching expense row contributes its magnitude and every other row (income
or refund rows included) contributes 0 — and it returns 0 when no row
matches. -/
theorem get_spending_eq_sum_of_expense_magnitudes (txns : List Transaction)
    (uid cid : String) (sd ed : DT) :
    get_spending_for_category txns uid cid sd ed =
      (txns.map fun t =>
        if spendMatches uid cid sd.normalize ed.normalize t then -t.amount else 0).sum ∧
    ((∀ t ∈ txns, spendMatches uid cid sd.normalize ed.normalize t = false) →
      get_spending_for_category txns uid cid sd ed = 0) := by
  constructor
  · exact abs_sum_filter_neg txns _ fun t h => spendMatches_amount_neg h
  · intro h
    unfold get_spending_for_category
    rw [List.filter_eq_nil_iff.mpr fun t ht => by simp [h t ht]]
    simp

/-- Witness for the amended C6: on a two-row store (one matching expense,
one income row) the aggregator equals the stated sum, and on the empty
store it returns 0. -/
theorem get_spending_eq_sum_of_expense_magnitudes_witness :
    get_spending_for_category
        [⟨"u", "c", -30, ⟨5, true⟩, false⟩, ⟨"u", "c", 50, ⟨6, true⟩, false⟩]
        "u" "c" ⟨0, true⟩ ⟨10, true⟩ =
      ([⟨"u", "c", -30, ⟨5, true⟩, false⟩,
        ⟨"u", "c", 50, ⟨6, true⟩, false⟩].map fun t : Transaction =>
        if spendMatches "u" "c" (DT.normalize ⟨0, true⟩) (DT.normalize ⟨10, true⟩) t
        then -t.amount else 0).sum ∧
    get_spending_for_category [] "u" "c" ⟨0, true⟩ ⟨10, true⟩ = 0 :=
  ⟨(get_spending_eq_sum_of_expense_magnitudes
      [⟨"u", "c", -30, ⟨5, true⟩, false⟩, ⟨"u", "c", 50, ⟨6, true⟩, false⟩]
      "u" "c" ⟨0, true⟩ ⟨10, true⟩).1,
   (get_spending_eq_sum_of_expense_magnitudes [] "u" "c" ⟨0, true⟩ ⟨10, true⟩).2
      (by simp)⟩

/-! ## Claim C9 — spend is non-negative and ignores income rows -/

/-- C9: the aggregator's result is never below 0, and a row with
non-negative amount (refund/income) never contributes: prepending such a
row to the store leaves the reported spend unchanged. -/
theorem get_spending_nonneg_ignores_income (txns : List Transaction)
    (uid cid : String) (sd ed : DT) (t : Transaction) (h : 0 ≤ t.amount) :
    0 ≤ get_spending_for_category txns uid cid sd ed ∧
    get_spending_for_category (t :: txns) uid cid sd ed =
      get_spending_for_category txns uid cid sd ed := by
  refine ⟨abs_nonneg _, ?_⟩
  unfold get_spending_for_category
  have hm : spendMatches uid cid sd.normalize ed.normalize t = false := by
    simp only [spendMatches, Bool.and_eq_false_iff, decide_eq_false_iff_not, not_lt]
    tauto
  simp [List.filter_cons, hm]

/-- Witness for C9: a concrete income row of +50 does not change the
reported spend. -/
theorem get_spending_nonneg_ignores_income_witness :
    (0 : ℚ) ≤ get_spending_for_category
        [⟨"u", "c", -30, ⟨5, true⟩, false⟩] "u" "c" ⟨0, true⟩ ⟨10, true⟩ ∧
    get_spending_for_category
        [⟨"u", "c", 50, ⟨6, true⟩, false⟩, ⟨"u", "c", -30, ⟨5, true⟩, false⟩]
        "u" "c" ⟨0, true⟩ ⟨10, true⟩ =
      get_spending_for_category
        [⟨"u", "c", -30, ⟨5, true⟩, false⟩] "u" "c" ⟨0, true⟩ ⟨10, true⟩ :=
  get_spending_nonneg_ignores_income
    [⟨"u", "c", -30, ⟨5, true⟩, false⟩] "u" "c" ⟨0, true⟩ ⟨10, true⟩
    ⟨"u", "c", 50, ⟨6, true⟩, false⟩ (by norm_num)

/-! ## Claim C2 — the rollover recursion formula -/

/-- C2: whenever the previous month's `Budget` and `CategoryBudget` exist,
`calculate_rollover_amount` returns the 5-tuple whose rollover component is
`(budget_amount + rollover_amount)` of the previous month minus the spend
aggregated over the previous month's calendar date range when rollover is
enabled, and 0 when it is not. -/
theorem calculate_rollover_recursive_formula (s : Store) (uid cid : String)
    (M : YM) (pb : Budget) (pcb : CategoryBudget)
    (hpb : findBudget s uid (prevMonth M) = some pb)
    (hpcb : pb.category_limits.find? (fun cb => cb.category_id == cid) = some pcb) :
    calculate_rollover_amount s uid cid M =
      .tuple
        (if pcb.rollover_enabled then
            pcb.budget_amount + pcb.rollover_amount.getD 0 -
              get_spending_for_category s.transactions uid cid
                (calculate_month_dates (prevMonth M)).1
                (calculate_month_dates (prevMonth M)).2
          else 0)
        pcb.budget_amount (pcb.rollover_amount.getD 0)
        (pcb.budget_amount + pcb.rollover_amount.getD 0)
        (get_spending_for_category s.transactions uid cid
          (calculate_month_dates (prevMonth M)).1
          (calculate_month_dates (prevMonth M)).2) := by
  simp only [calculate_rollover_amount, hpb, hpcb]
  simp only [CalcResult.tuple.injEq, and_true, true_and]
  set q := pcb.budget_amount + pcb.rollover_amount.getD 0 -
    get_spending_for_category s.transactions uid cid
      (calculate_month_dates (prevMonth M)).1
      (calculate_month_dates (prevMonth M)).2 with hq
  by_cases hen : pcb.rollover_enabled
  · rcases lt_trichotomy q 0 with h | h | h
    · simp [hen, h, not_lt.mpr (le_of_lt h)]
    · simp [hen, ← h]
    · simp [hen, h]
  · simp [hen]

/-- A one-category January 2024 budget (rollover enabled, base 100, stored
rollover 0) with a single −80 January expense: the store of the spec's
Scenario A, used as a concrete witness. -/
def scenarioAStore : Store :=
  { budgets := [⟨1, "u", ⟨2024, 1⟩, false, none, [⟨"c", 100, true, some 0⟩]⟩],
    transactions := [⟨"u", "c", -80, ⟨encDT 2024 1 15 0, true⟩, false⟩],
    rollover_calculations := [] }

/-- Witness for C2 (the spec's Scenario A): January budget 100, spend 80,
rollover enabled — the February rollover computes to +20. -/
theorem calculate_rollover_recursive_formula_witness :
    calculate_rollover_amount scenarioAStore "u" "c" ⟨2024, 2⟩ =
      .tuple 20 100 0 100 80 := by
  have h := calculate_rollover_recursive_formula scenarioAStore "u" "c" ⟨2024, 2⟩
    ⟨1, "u", ⟨2024, 1⟩, false, none, [⟨"c", 100, true, some 0⟩]⟩
    ⟨"c", 100, true, some 0⟩ (by rfl) (by rfl)
  rw [h]
  norm_num [get_spending_for_category, spendMatches, DT.normalize,
    calculate_month_dates, encDT, daysInMonth, prevMonth, scenarioAStore]

/-! ## Claim C5 — the base case returns a bare float and crashes its callers -/

/-- A store holding a February 2024 budget with one category and no January
budget at all: the base case of the rollover recursion. -/
def noPrevMonthStore : Store :=
  { budgets := [⟨1, "u", ⟨2024, 2⟩, false, none, [⟨"c", 100, true, none⟩]⟩],
    transactions := [],
    rollover_calculations := [] }

/-- C5 (code bug): when the previous month's budget is absent,
`calculate_rollover_amount` returns the bare float `0.0` instead of the
5-tuple returned on every other path, so the 5-way tuple unpacking in
`_perform_rollover_recalculation` (and in budget creation/copy) raises
`TypeError`: the per-month recalculation raises instead of completing
normally with a stored rollover of 0, rolling the session back. -/
theorem rollover_base_case_crashes_recalculation :
    calculate_rollover_amount noPrevMonthStore "u" "c" ⟨2024, 2⟩ = .scalar 0 ∧
    perform_rollover_recalculation ⟨noPrevMonthStore, noPrevMonthStore⟩
        "u" ⟨2024, 2⟩ 0 "manual_recalculation" =
      .error ⟨noPrevMonthStore, noPrevMonthStore⟩ := by
  constructor
  · rfl
  · rfl

/-! ## Well-formedness of the store

The schema's constraints: primary-key ids are unique and
`UniqueConstraint('user_id', 'year_month')` holds on `budgets`. -/

/-- A month parsed from a well-formed `"YYYY-MM"` string has its month
component in 1..12. -/
def validYM (ym : YM) : Prop := 1 ≤ ym.month ∧ ym.month ≤ 12

instance : DecidablePred validYM := fun ym => by unfold validYM; infer_instance

/-- Database well-formedness: budget ids are unique, every user has at most
one budget per month, and stored months are well-formed. -/
def wfStore (s : Store) : Prop :=
  (s.budgets.map (·.id)).Nodup ∧
  (s.budgets.Pairwise fun a b => a.user_id = b.user_id → a.year_month ≠ b.year_month) ∧
  ∀ b ∈ s.budgets, validYM b.year_month

/-- `ymKey` is injective on valid months. -/
theorem ymKey_inj {a b : YM} (ha : validYM a) (hb : validYM b)
    (h : ymKey a = ymKey b) : a = b := by
  obtain ⟨ya, ma⟩ := a
  obtain ⟨yb, mb⟩ := b
  simp only [validYM] at ha hb
  simp only [ymKey] at h
  have : ya = yb ∧ ma = mb := by omega
  simp [this.1, this.2]

/-! ## Sorting lemmas for the chain walk's `ORDER BY year_month` -/

theorem insertByYm_perm (p : Nat × YM) (l : List (Nat × YM)) :
    List.Perm (insertByYm p l) (p :: l) := by
  induction l with
  | nil => rfl
  | cons q rest ih =>
    by_cases h : ymLtB q.2 p.2
    · simpa [insertByYm, h] using (ih.cons q).trans (List.Perm.swap p q rest)
    · simp [insertByYm, h]

theorem sortByYm_perm (l : List (Nat × YM)) : List.Perm (sortByYm l) l := by
  induction l with
  | nil => rfl
  | cons p rest ih => exact (insertByYm_perm p (sortByYm rest)).trans (ih.cons p)

theorem insertByYm_sorted (p : Nat × YM) (l : List (Nat × YM))
    (hl : l.Pairwise fun a b => ymKey a.2 ≤ ymKey b.2) :
    (insertByYm p l).Pairwise fun a b => ymKey a.2 ≤ ymKey b.2 := by
  induction l with
  | nil => simp [insertByYm]
  | cons q rest ih =>
    rcases List.pairwise_cons.mp hl with ⟨hq, hrest⟩
    by_cases h : ymLtB q.2 p.2
    · have hle : ymKey q.2 ≤ ymKey p.2 :=
        le_of_lt (by simpa [ymLtB] using h)
      simp only [insertByYm, h, if_pos]
      refine List.pairwise_cons.mpr ⟨?_, ih hrest⟩
      intro x hx
      rcases List.mem_cons.mp ((insertByYm_perm p rest).mem_iff.mp hx) with hxp | hxr
      · rw [hxp]; exact hle
      · exact hq x hxr
    · have hle : ymKey p.2 ≤ ymKey q.2 := by
        have := (not_iff_not.mpr (show ymLtB q.2 p.2 = true ↔ ymKey q.2 < ymKey p.2 by
          simp [ymLtB])).mp (by simpa using h)
        exact le_of_not_lt this
      simp only [insertByYm, h, if_neg, not_false_iff]
      refine List.pairwise_cons.mpr ⟨?_, hl⟩
      intro x hx
      rcases List.mem_cons.mp hx with hxq | hxr
      · rw [hxq]; exact hle
      · exact hle.trans (hq x hxr)

theorem sortByYm_sorted (l : List (Nat × YM)) :
    (sortByYm l).Pairwise fun a b => ymKey a.2 ≤ ymKey b.2 := by
  induction l with
  | nil => simp [sortByYm]
  | cons p rest ih => exact insertByYm_sorted p (sortByYm rest) ih

/-- With pairwise-distinct valid months, the ascending sort is strictly
ascending. -/
theorem sortByYm_strict (l : List (Nat × YM))
    (hne : l.Pairwise fun a b => a.2 ≠ b.2)
    (hval : ∀ p ∈ l, validYM p.2) :
    (sortByYm l).Pairwise fun a b => ymKey a.2 < ymKey b.2 := by
  have hne' : (sortByYm l).Pairwise fun a b => a.2 ≠ b.2 :=
    (List.Perm.pairwise_iff (fun {x y} h => Ne.symm h) (sortByYm_perm l)).mpr hne
  have hval' : ∀ p ∈ sortByYm l, validYM p.2 :=
    fun p hp => hval p ((sortByYm_perm l).mem_iff.mp hp)
  have hcomb := (sortByYm_sorted l).and hne'
  refine List.Pairwise.imp_of_mem ?_ hcomb
  rintro a b ha hb ⟨hle, hab⟩
  rcases lt_or_eq_of_le hle with h | h
  · exact h
  · exact absurd (ymKey_inj (hval' a ha) (hval' b hb) h) hab

/-! ## Claim C3 — the chain walk's scope and order -/

/-- C3: `invalidate_rollover_chain` processes exactly the user's budgets
with `year_month` strictly greater than `changed_month`, in strictly
ascending month order, sequentially — the walk is the left fold of the
per-month step over that sorted list, so every month's recomputation runs
on the state produced by the months before it. -/
theorem invalidate_chain_scope_and_order (s : Store) (uid : String)
    (changed : YM) (now : ℤ) (reason : String) (hwf : wfStore s) :
    (∀ p : Nat × YM, p ∈ chainList s uid changed ↔
      ∃ b ∈ s.budgets, b.user_id = uid ∧ ymKey changed < ymKey b.year_month ∧
        p = (b.id, b.year_month)) ∧
    ((chainList s uid changed).Pairwise fun a b => ymKey a.2 < ymKey b.2) ∧
    invalidate_rollover_chain s uid changed now reason =
      ((chainList s uid changed).foldl (chainStep uid now reason) ⟨s, s⟩).current ∧
    (∀ L₁ L₂, chainList s uid changed = L₁ ++ L₂ →
      (chainList s uid changed).foldl (chainStep uid now reason) ⟨s, s⟩ =
        L₂.foldl (chainStep uid now reason)
          (L₁.foldl (chainStep uid now reason) ⟨s, s⟩)) := by
  refine ⟨?_, ?_, rfl, ?_⟩
  · intro p
    unfold chainList
    rw [(sortByYm_perm _).mem_iff]
    simp only [List.mem_map, List.mem_filter, Bool.and_eq_true, beq_iff_eq, ymLtB,
      decide_eq_true_eq]
    constructor
    · rintro ⟨b, ⟨hb, hu, hlt⟩, hp⟩
      exact ⟨b, hb, hu, hlt, hp.symm⟩
    · rintro ⟨b, hb, hu, hlt, hp⟩
      exact ⟨b, ⟨hb, hu, hlt⟩, hp.symm⟩
  · refine sortByYm_strict _ ?_ ?_
    case refine_2 =>
      intro p hp
      rcases List.mem_map.mp hp with ⟨b, hb, rfl⟩
      exact hwf.2.2 b (List.mem_of_mem_filter hb)
    have hpair : (s.budgets.filter fun b =>
        b.user_id == uid && ymLtB changed b.year_month).Pairwise
        (fun a b => a.user_id = b.user_id → a.year_month ≠ b.year_month) :=
      hwf.2.1.sublist (List.filter_sublist _)
    have : (s.budgets.filter fun b =>
        b.user_id == uid && ymLtB changed b.year_month).Pairwise
        (fun a b => a.year_month ≠ b.year_month) := by
      refine List.Pairwise.imp_of_mem ?_ hpair
      intro a b ha hb h
      have hua : a.user_id = uid := by
        have := (List.mem_filter.mp ha).2
        simp only [Bool.and_eq_true, beq_iff_eq] at this
        exact this.1
      have hub : b.user_id = uid := by
        have := (List.mem_filter.mp hb).2
        simp only [Bool.and_eq_true, beq_iff_eq] at this
        exact this.1
      exact h (hua.trans hub.symm)
    exact (List.pairwise_map).mpr (this.imp fun h => h)
  · intro L₁ L₂ h
    rw [h, List.foldl_append]

/-- A two-budget store (January and February 2024 for user `u`) satisfying
the schema constraints, used to witness the chain-walk theorems. -/
def twoMonthStore : Store :=
  { budgets :=
      [⟨2, "u", ⟨2024, 2⟩, false, none, [⟨"c", 100, true, some 0⟩]⟩,
       ⟨1, "u", ⟨2024, 1⟩, false, none, [⟨"c", 100, true, some 0⟩]⟩],
    transactions := [⟨"u", "c", -80, ⟨encDT 2024 1 15 0, true⟩, false⟩],
    rollover_calculations := [] }

theorem twoMonthStore_wf : wfStore twoMonthStore := by
  refine ⟨by decide, ?_, by decide⟩
  simp [twoMonthStore, List.pairwise_cons]

/-- Witness for C3 at a concrete two-month store. -/
theorem invalidate_chain_scope_and_order_witness :
    (∀ p : Nat × YM, p ∈ chainList twoMonthStore "u" ⟨2023, 12⟩ ↔
      ∃ b ∈ twoMonthStore.budgets, b.user_id = "u" ∧
        ymKey ⟨2023, 12⟩ < ymKey b.year_month ∧ p = (b.id, b.year_month)) ∧
    ((chainList twoMonthStore "u" ⟨2023, 12⟩).Pairwise
      fun a b => ymKey a.2 < ymKey b.2) ∧
    invalidate_rollover_chain twoMonthStore "u" ⟨2023, 12⟩ 7 "transaction_change" =
      ((chainList twoMonthStore "u" ⟨2023, 12⟩).foldl
        (chainStep "u" 7 "transaction_change") ⟨twoMonthStore, twoMonthStore⟩).current ∧
    (∀ L₁ L₂, chainList twoMonthStore "u" ⟨2023, 12⟩ = L₁ ++ L₂ →
      (chainList twoMonthStore "u" ⟨2023, 12⟩).foldl
          (chainStep "u" 7 "transaction_change") ⟨twoMonthStore, twoMonthStore⟩ =
        L₂.foldl (chainStep "u" 7 "transaction_change")
          (L₁.foldl (chainStep "u" 7 "transaction_change")
            ⟨twoMonthStore, twoMonthStore⟩)) :=
  invalidate_chain_scope_and_order twoMonthStore "u" ⟨2023, 12⟩ 7
    "transaction_change" twoMonthStore_wf

/-! ## Infrastructure for the chain-walk theorems (C4, C7, C10) -/

/-- Fetch a budget row by primary key (`db.query(Budget).filter(Budget.id
== bid).first()`). -/
def getBudget (s : Store) (bid : Nat) : Option Budget :=
  s.budgets.find? (·.id == bid)

/-- Category-limit projection of an optional budget row. -/
def catsOf (o : Option Budget) : Option (List CategoryBudget) :=
  o.map (·.category_limits)

/-- Whether `calculate_rollover_amount` takes one of its bare-float base
cases (previous budget or previous category budget absent). -/
def calcIsScalar (s : Store) (uid cid : String) (ym : YM) : Bool :=
  match calculate_rollover_amount s uid cid ym with
  | .scalar _ => true
  | .tuple _ _ _ _ _ => false

/-- The rollover component computed by `calculate_rollover_amount`. -/
def calcNew (s : Store) (uid cid : String) (ym : YM) : ℚ :=
  match calculate_rollover_amount s uid cid ym with
  | .scalar v => v
  | .tuple r _ _ _ _ => r

/-- Whether recalculating a month fails (the tuple-unpacking `TypeError`):
the month's budget exists and some of its categories hits a bare-float base
case. -/
def monthFails (s : Store) (uid : String) (ym : YM) : Bool :=
  match findBudget s uid ym with
  | none => false
  | some b => b.category_limits.any fun cb => calcIsScalar s uid cb.category_id ym

/-- The structural skeleton of a store: everything the walk never changes —
budget keys, category-id lists, and the transaction table. -/
def structOf (s : Store) :
    List (Nat × String × YM × List String) × List Transaction :=
  (s.budgets.map fun b =>
    (b.id, b.user_id, b.year_month, b.category_limits.map (·.category_id)),
   s.transactions)

/-- Apply the pending uncommitted `rollover_needs_recalc = True` of the
last failed month, if any. -/
def applyPend (s : Store) : Option Nat → Store
  | none => s
  | some f => setNeedsRecalc s f true

/-! ### Elementary facts about the store operations -/

@[simp] theorem mapBudget_budgets (s : Store) (bid : Nat) (f : Budget → Budget) :
    (mapBudget s bid f).budgets =
      s.budgets.map fun b => if b.id == bid then f b else b := rfl

@[simp] theorem mapBudget_transactions (s : Store) (bid : Nat) (f : Budget → Budget) :
    (mapBudget s bid f).transactions = s.transactions := rfl

@[simp] theorem mapBudget_hist (s : Store) (bid : Nat) (f : Budget → Budget) :
    (mapBudget s bid f).rollover_calculations = s.rollover_calculations := rfl

@[simp] theorem addHist_budgets (s : Store) (r : RolloverCalculation) :
    (addHist s r).budgets = s.budgets := rfl

@[simp] theorem addHist_transactions (s : Store) (r : RolloverCalculation) :
    (addHist s r).transactions = s.transactions := rfl

theorem prevMonth_ne (m : YM) : prevMonth m ≠ m := by
  unfold prevMonth
  by_cases h : m.month = 1 <;> intro hc
  · rw [if_pos h] at hc
    have := congrArg YM.month hc
    simp [h] at this
  · rw [if_neg h] at hc
    have := congrArg YM.month hc
    simp at this

theorem ymKey_prevMonth_lt (m : YM) : ymKey (prevMonth m) < ymKey m := by
  unfold prevMonth ymKey
  by_cases h : m.month = 1
  · rw [if_pos h]
    simp only [h]
    omega
  · rw [if_neg h]
    simp only
    omega

/-- A budget-row transformer that keeps the row's key fields. -/
def preservesKey (f : Budget → Budget) : Prop :=
  ∀ b, (f b).id = b.id ∧ (f b).user_id = b.user_id ∧ (f b).year_month = b.year_month

theorem preservesKey_setFlag (flag : Bool) :
    preservesKey fun b => { b with rollover_needs_recalc := flag } :=
  fun _ => ⟨rfl, rfl, rfl⟩

theorem preservesKey_setBoth (now : ℤ) (flag : Bool) :
    preservesKey fun b =>
      { b with rollover_last_calculated := some now, rollover_needs_recalc := flag } :=
  fun _ => ⟨rfl, rfl, rfl⟩

theorem preservesKey_setCats (g : List CategoryBudget → List CategoryBudget) :
    preservesKey fun b => { b with category_limits := g b.category_limits } :=
  fun _ => ⟨rfl, rfl, rfl⟩

theorem find?_map_pred {α : Type} (l : List α) (g : α → α) (p : α → Bool)
    (hg : ∀ a, p (g a) = p a) :
    (l.map g).find? p = (l.find? p).map g := by
  induction l with
  | nil => rfl
  | cons a l ih =>
    by_cases h : p a = true
    · simp [List.find?_cons, hg, h]
    · rw [List.map_cons, List.find?_cons_of_neg _ (by simp [hg, h]),
        List.find?_cons_of_neg _ (by simp [h]), ih]

theorem findBudget_mapBudget (s : Store) (bid : Nat) (f : Budget → Budget)
    (uid : String) (ym : YM) (hf : preservesKey f) :
    findBudget (mapBudget s bid f) uid ym =
      (findBudget s uid ym).map fun b => if b.id == bid then f b else b := by
  unfold findBudget
  rw [mapBudget_budgets]
  refine find?_map_pred _ _ _ ?_
  intro b
  by_cases h : b.id == bid
  · simp only [h, if_pos]
    rw [(hf b).2.1, (hf b).2.2]
  · simp [h]

theorem mem_of_find?_budget {s : Store} {uid : String} {ym : YM} {b : Budget}
    (h : findBudget s uid ym = some b) :
    b ∈ s.budgets ∧ b.user_id = uid ∧ b.year_month = ym := by
  refine ⟨List.mem_of_find?_eq_some h, ?_⟩
  have := List.find?_some h
  simp only [Bool.and_eq_true, beq_iff_eq] at this
  exact this

/-- `calculate_rollover_amount` does not look at budgets' flag fields nor
at the history table: mapping a budget row with a transformer that keeps
key fields and category limits leaves the result unchanged. More
generally, it is unchanged as long as the transformer keeps the category
limits of the budget actually fetched (the previous month's). -/
theorem calculate_mapBudget (s : Store) (bid : Nat) (f : Budget → Budget)
    (uid cid : String) (ym : YM) (hf : preservesKey f)
    (hcats : ∀ b ∈ s.budgets, b.id = bid → b.user_id = uid →
      b.year_month = prevMonth ym → (f b).category_limits = b.category_limits) :
    calculate_rollover_amount (mapBudget s bid f) uid cid ym =
      calculate_rollover_amount s uid cid ym := by
  unfold calculate_rollover_amount
  rw [findBudget_mapBudget s bid f uid (prevMonth ym) hf, mapBudget_transactions]
  cases hfb : findBudget s uid (prevMonth ym) with
  | none => rfl
  | some b =>
    obtain ⟨hmem, huser, hym⟩ := mem_of_find?_budget hfb
    by_cases h : b.id = bid
    · have hcl : (f b).category_limits = b.category_limits :=
        hcats b hmem h huser hym
      simp [h, hcl]
    · simp [h]

theorem calculate_addHist (s : Store) (r : RolloverCalculation)
    (uid cid : String) (ym : YM) :
    calculate_rollover_amount (addHist s r) uid cid ym =
      calculate_rollover_amount s uid cid ym := rfl

/-- Flag updates never change any category limits, so they never change
`calculate_rollover_amount`. -/
theorem calculate_setNeedsRecalc (s : Store) (bid : Nat) (flag : Bool)
    (uid cid : String) (ym : YM) :
    calculate_rollover_amount (setNeedsRecalc s bid flag) uid cid ym =
      calculate_rollover_amount s uid cid ym :=
  calculate_mapBudget s bid _ uid cid ym (preservesKey_setFlag flag)
    (fun _ _ _ _ _ => rfl)

theorem calculate_setBudgetFlags (s : Store) (bid : Nat) (now : ℤ) (flag : Bool)
    (uid cid : String) (ym : YM) :
    calculate_rollover_amount (setBudgetFlags s bid now flag) uid cid ym =
      calculate_rollover_amount s uid cid ym :=
  calculate_mapBudget s bid _ uid cid ym (preservesKey_setBoth now flag)
    (fun _ _ _ _ _ => rfl)

theorem calculate_applyPend (s : Store) (pend : Option Nat)
    (uid cid : String) (ym : YM) :
    calculate_rollover_amount (applyPend s pend) uid cid ym =
      calculate_rollover_amount s uid cid ym := by
  cases pend with
  | none => rfl
  | some f => exact calculate_setNeedsRecalc s f true uid cid ym

/-- `calculate_rollover_amount` is unchanged by a category-value update on
a budget that cannot be the fetched previous-month budget. -/
theorem calculate_updateCBAt (s : Store) (bid : Nat) (idx : Nat) (v : ℚ)
    (uid cid : String) (ym : YM)
    (hsep : ∀ b ∈ s.budgets, b.id = bid →
      ¬(b.user_id = uid ∧ b.year_month = prevMonth ym)) :
    calculate_rollover_amount (updateCBAt s bid idx v) uid cid ym =
      calculate_rollover_amount s uid cid ym := by
  unfold updateCBAt
  refine calculate_mapBudget s bid
    (fun b => { b with category_limits := setRollover b.category_limits idx v })
    uid cid ym (preservesKey_setCats fun cl => setRollover cl idx v) ?_
  intro b hb hid huser hym
  exact absurd ⟨huser, hym⟩ (hsep b hb hid)

/-! ### The structural skeleton is preserved and determines the reads -/

/-- Structural projection of one budget row. -/
def projB (b : Budget) : Nat × String × YM × List String :=
  (b.id, b.user_id, b.year_month, b.category_limits.map (·.category_id))

theorem structOf_eq_iff (s₁ s₂ : Store) :
    structOf s₁ = structOf s₂ ↔
      s₁.budgets.map projB = s₂.budgets.map projB ∧
        s₁.transactions = s₂.transactions := by
  unfold structOf projB
  rw [Prod.mk.injEq]

theorem setRollover_map_categoryId (l : List CategoryBudget) (idx : Nat) (v : ℚ) :
    (setRollover l idx v).map (·.category_id) = l.map (·.category_id) := by
  induction l generalizing idx with
  | nil => rfl
  | cons cb rest ih =>
    cases idx with
    | zero => rfl
    | succ n => simp [setRollover, ih]

theorem structOf_mapBudget (s : Store) (bid : Nat) (f : Budget → Budget)
    (hf : preservesKey f)
    (hcat : ∀ b, (f b).category_limits.map (·.category_id) =
      b.category_limits.map (·.category_id)) :
    structOf (mapBudget s bid f) = structOf s := by
  rw [structOf_eq_iff]
  refine ⟨?_, rfl⟩
  rw [mapBudget_budgets, List.map_map]
  refine List.map_congr_left ?_
  intro b _
  by_cases h : b.id == bid
  · simp only [Function.comp, h, if_pos, projB]
    rw [(hf b).1, (hf b).2.1, (hf b).2.2, hcat b]
  · simp [Function.comp, h]

theorem structOf_setNeedsRecalc (s : Store) (bid : Nat) (flag : Bool) :
    structOf (setNeedsRecalc s bid flag) = structOf s :=
  structOf_mapBudget s bid _ (preservesKey_setFlag flag) (fun _ => rfl)

theorem structOf_setBudgetFlags (s : Store) (bid : Nat) (now : ℤ) (flag : Bool) :
    structOf (setBudgetFlags s bid now flag) = structOf s :=
  structOf_mapBudget s bid _ (preservesKey_setBoth now flag) (fun _ => rfl)

theorem structOf_updateCBAt (s : Store) (bid idx : Nat) (v : ℚ) :
    structOf (updateCBAt s bid idx v) = structOf s := by
  unfold updateCBAt
  exact structOf_mapBudget s bid
    (fun b => { b with category_limits := setRollover b.category_limits idx v })
    (preservesKey_setCats fun cl => setRollover cl idx v)
    (fun b => setRollover_map_categoryId b.category_limits idx v)

theorem structOf_addHist (s : Store) (r : RolloverCalculation) :
    structOf (addHist s r) = structOf s := rfl

theorem structOf_applyPend (s : Store) (pend : Option Nat) :
    structOf (applyPend s pend) = structOf s := by
  cases pend with
  | none => rfl
  | some f => exact structOf_setNeedsRecalc s f true

theorem find?_congr_proj {β : Type} (proj : Budget → β) (q : β → Bool) :
    ∀ l₁ l₂ : List Budget, l₁.map proj = l₂.map proj →
      (l₁.find? fun b => q (proj b)).map proj =
        (l₂.find? fun b => q (proj b)).map proj := by
  intro l₁
  induction l₁ with
  | nil =>
    intro l₂ h
    rw [List.eq_nil_of_map_eq_nil h.symm]
  | cons a l ih =>
    intro l₂ h
    cases l₂ with
    | nil => simp at h
    | cons b l₂' =>
      simp only [List.map_cons, List.cons.injEq] at h
      obtain ⟨hab, hl⟩ := h
      simp only [List.find?_cons]
      have hpb : q (proj b) = q (proj a) := by rw [hab]
      rw [hpb]
      cases hq : q (proj a)
      · simp only [hq]
        exact ih l₂' hl
      · simp only [hq, Option.map_some']
        rw [hab]

theorem findBudget_congr {s₁ s₂ : Store} (h : structOf s₁ = structOf s₂)
    (uid : String) (ym : YM) :
    (findBudget s₁ uid ym).map projB = (findBudget s₂ uid ym).map projB := by
  have hb := ((structOf_eq_iff s₁ s₂).mp h).1
  exact find?_congr_proj projB
    (fun t => t.2.1 == uid && t.2.2.1 == ym) s₁.budgets s₂.budgets hb

/-- `calcIsScalar` as a function of the fetched previous-month budget's
structural projection. -/
theorem calcIsScalar_eq_proj (s : Store) (uid cid : String) (ym : YM) :
    calcIsScalar s uid cid ym =
      (match (findBudget s uid (prevMonth ym)).map projB with
        | none => true
        | some t => (t.2.2.2.find? (· == cid)).isNone) := by
  unfold calcIsScalar calculate_rollover_amount
  cases hfb : findBudget s uid (prevMonth ym) with
  | none => rfl
  | some b =>
    simp only [Option.map_some']
    have hmap : (b.category_limits.map (·.category_id)).find? (· == cid) =
        (b.category_limits.find? fun cb => cb.category_id == cid).map
          (·.category_id) := by
      rw [List.find?_map]
      rfl
    cases hc : b.category_limits.find? fun cb => cb.category_id == cid with
    | none => simp [projB, hmap, hc]
    | some cb => simp [projB, hmap, hc]

theorem calcIsScalar_congr {s₁ s₂ : Store} (h : structOf s₁ = structOf s₂)
    (uid cid : String) (ym : YM) :
    calcIsScalar s₁ uid cid ym = calcIsScalar s₂ uid cid ym := by
  rw [calcIsScalar_eq_proj, calcIsScalar_eq_proj,
    findBudget_congr h uid (prevMonth ym)]

theorem any_cats_map (l : List CategoryBudget) (g : String → Bool) :
    l.any (fun cb => g cb.category_id) = (l.map (·.category_id)).any g := by
  induction l with
  | nil => rfl
  | cons cb l ih => simp [ih]

/-- `monthFails` as a function of the structural skeleton. -/
theorem monthFails_congr {s₁ s₂ : Store} (h : structOf s₁ = structOf s₂)
    (uid : String) (ym : YM) :
    monthFails s₁ uid ym = monthFails s₂ uid ym := by
  unfold monthFails
  have hfb := findBudget_congr h uid ym
  cases hfb₁ : findBudget s₁ uid ym with
  | none =>
    rw [hfb₁] at hfb
    cases hfb₂ : findBudget s₂ uid ym with
    | none => rfl
    | some b₂ => rw [hfb₂] at hfb; simp at hfb
  | some b₁ =>
    rw [hfb₁] at hfb
    cases hfb₂ : findBudget s₂ uid ym with
    | none => rw [hfb₂] at hfb; simp at hfb
    | some b₂ =>
      rw [hfb₂] at hfb
      simp only [Option.map_some', Option.some.injEq] at hfb
      have hcats : b₁.category_limits.map (·.category_id) =
          b₂.category_limits.map (·.category_id) := congrArg (·.2.2.2) hfb
      show (b₁.category_limits.any fun cb => calcIsScalar s₁ uid cb.category_id ym) =
        b₂.category_limits.any fun cb => calcIsScalar s₂ uid cb.category_id ym
      rw [any_cats_map b₁.category_limits fun cid => calcIsScalar s₁ uid cid ym,
        any_cats_map b₂.category_limits fun cid => calcIsScalar s₂ uid cid ym,
        hcats]
      congr 1
      funext cid
      exact calcIsScalar_congr h uid cid ym

theorem wfStore_congr {s₁ s₂ : Store} (h : structOf s₁ = structOf s₂) :
    wfStore s₁ ↔ wfStore s₂ := by
  have hb := ((structOf_eq_iff s₁ s₂).mp h).1
  have hid : s₁.budgets.map (·.id) = s₂.budgets.map (·.id) := by
    have := congrArg (List.map (·.1)) hb
    simpa [List.map_map, Function.comp, projB] using this
  have hpair : (s₁.budgets.Pairwise fun a b =>
      a.user_id = b.user_id → a.year_month ≠ b.year_month) ↔
      s₂.budgets.Pairwise fun a b =>
        a.user_id = b.user_id → a.year_month ≠ b.year_month := by
    constructor <;> intro hp
    · have h₁ : (s₁.budgets.map projB).Pairwise
          (fun t u => t.2.1 = u.2.1 → t.2.2.1 ≠ u.2.2.1) :=
        List.pairwise_map.mpr hp
      rw [hb] at h₁
      exact List.pairwise_map.mp h₁
    · have h₁ : (s₂.budgets.map projB).Pairwise
          (fun t u => t.2.1 = u.2.1 → t.2.2.1 ≠ u.2.2.1) :=
        List.pairwise_map.mpr hp
      rw [← hb] at h₁
      exact List.pairwise_map.mp h₁
  have hval : (∀ b ∈ s₁.budgets, validYM b.year_month) ↔
      ∀ b ∈ s₂.budgets, validYM b.year_month := by
    constructor
    · intro hv b hbmem
      have hm : projB b ∈ s₁.budgets.map projB := by
        rw [hb]
        exact List.mem_map.mpr ⟨b, hbmem, rfl⟩
      rcases List.mem_map.mp hm with ⟨a, ha, hab⟩
      have hym : a.year_month = b.year_month := congrArg (fun t => t.2.2.1) hab
      rw [← hym]
      exact hv a ha
    · intro hv b hbmem
      have hm : projB b ∈ s₂.budgets.map projB := by
        rw [← hb]
        exact List.mem_map.mpr ⟨b, hbmem, rfl⟩
      rcases List.mem_map.mp hm with ⟨a, ha, hab⟩
      have hym : a.year_month = b.year_month := congrArg (fun t => t.2.2.1) hab
      rw [← hym]
      exact hv a ha
  unfold wfStore
  constructor
  · rintro ⟨h1, h2, h3⟩
    exact ⟨by rw [← hid]; exact h1, hpair.mp h2, hval.mp h3⟩
  · rintro ⟨h1, h2, h3⟩
    exact ⟨by rw [hid]; exact h1, hpair.mpr h2, hval.mpr h3⟩

/-! ### Uniqueness consequences of well-formedness -/

/-- The budget row with id `bid` and month `p.2` for user `uid` exists. -/
def validAt (s : Store) (uid : String) (p : Nat × YM) : Prop :=
  ∃ b ∈ s.budgets, b.id = p.1 ∧ b.user_id = uid ∧ b.year_month = p.2

theorem budget_unique {l : List Budget}
    (hp : l.Pairwise fun a b => a.user_id = b.user_id → a.year_month ≠ b.year_month)
    {b₀ b₁ : Budget} (h₀ : b₀ ∈ l) (h₁ : b₁ ∈ l)
    (hu : b₀.user_id = b₁.user_id) (hy : b₀.year_month = b₁.year_month) :
    b₀ = b₁ := by
  induction l with
  | nil => cases h₀
  | cons a l ih =>
    rcases List.pairwise_cons.mp hp with ⟨ha, hl⟩
    rcases List.mem_cons.mp h₀ with rfl | h₀'
    · rcases List.mem_cons.mp h₁ with rfl | h₁'
      · rfl
      · exact absurd hy (ha b₁ h₁' hu)
    · rcases List.mem_cons.mp h₁ with rfl | h₁'
      · exact absurd hy.symm (ha b₀ h₀' hu.symm)
      · exact ih hl h₀' h₁'

theorem budget_unique_id {l : List Budget} (hnd : (l.map (·.id)).Nodup)
    {b₀ b₁ : Budget} (h₀ : b₀ ∈ l) (h₁ : b₁ ∈ l) (hid : b₀.id = b₁.id) :
    b₀ = b₁ :=
  List.inj_on_of_nodup_map hnd h₀ h₁ hid

/-- Under well-formedness, the `(user, month)` fetch of a valid `(id,
month)` pair returns exactly the row with that id. -/
theorem findBudget_of_validAt {s : Store} {uid : String} {p : Nat × YM}
    (hwf : wfStore s) (hv : validAt s uid p) :
    ∃ b, findBudget s uid p.2 = some b ∧ b ∈ s.budgets ∧ b.id = p.1 ∧
      b.user_id = uid ∧ b.year_month = p.2 := by
  obtain ⟨b₀, hb₀, hid₀, hu₀, hy₀⟩ := hv
  have hmatch : (fun b : Budget => b.user_id == uid && b.year_month == p.2) b₀ = true := by
    simp [hu₀, hy₀]
  cases hfb : findBudget s uid p.2 with
  | none =>
    exact absurd (List.find?_eq_none.mp hfb b₀ hb₀) (by simp [hmatch])
  | some b =>
    obtain ⟨hbmem, hbu, hby⟩ := mem_of_find?_budget hfb
    have : b₀ = b :=
      budget_unique hwf.2.1 hb₀ hbmem (hu₀.trans hbu.symm) (hy₀.trans hby.symm)
    exact ⟨b, rfl, hbmem, this ▸ hid₀, hbu, hby⟩

/-- Separation hypothesis used throughout: no budget with id `bid` is the
previous-month `(uid, pm)` budget. -/
def sepStore (s : Store) (bid : Nat) (uid : String) (pm : YM) : Prop :=
  ∀ b ∈ s.budgets, b.id = bid → ¬(b.user_id = uid ∧ b.year_month = pm)

theorem sepStore_of_wf {s : Store} {uid : String} {p : Nat × YM}
    (hwf : wfStore s) (hv : validAt s uid p) :
    sepStore s p.1 uid (prevMonth p.2) := by
  obtain ⟨b₀, hb₀, hid₀, hu₀, hy₀⟩ := hv
  intro b hb hid ⟨hu, hy⟩
  have : b = b₀ := budget_unique_id hwf.1 hb hb₀ (by rw [hid, hid₀])
  rw [this, hy₀] at hy
  exact prevMonth_ne p.2 hy.symm

theorem sepStore_mapBudget {s : Store} {bid uid pm} (bid' : Nat)
    (f : Budget → Budget) (hf : preservesKey f)
    (hsep : sepStore s bid uid pm) :
    sepStore (mapBudget s bid' f) bid uid pm := by
  intro b hb hid huy
  rw [mapBudget_budgets] at hb
  rcases List.mem_map.mp hb with ⟨b₀, hb₀, rfl⟩
  by_cases h : b₀.id == bid'
  · simp only [h, if_pos] at hid huy ⊢
    exact hsep b₀ hb₀ (by rw [← (hf b₀).1]; exact hid)
      ⟨by rw [← (hf b₀).2.1]; exact huy.1, by rw [← (hf b₀).2.2]; exact huy.2⟩
  · simp only [h, Bool.false_eq_true, if_neg, not_false_iff] at hid huy ⊢
    exact hsep b₀ hb₀ hid huy

theorem sepStore_updateCBAt {s : Store} {bid uid pm} (bid' idx : Nat) (v : ℚ)
    (hsep : sepStore s bid uid pm) :
    sepStore (updateCBAt s bid' idx v) bid uid pm := by
  unfold updateCBAt
  exact sepStore_mapBudget bid'
    (fun b => { b with category_limits := setRollover b.category_limits idx v })
    (preservesKey_setCats fun cl => setRollover cl idx v) hsep

theorem sepStore_addHist {s : Store} {bid uid pm} (r : RolloverCalculation)
    (hsep : sepStore s bid uid pm) :
    sepStore (addHist s r) bid uid pm := hsep

/-! ### `getBudget` under the store operations -/

theorem getBudget_mapBudget (s : Store) (bid : Nat) (f : Budget → Budget)
    (bid' : Nat) (hf : preservesKey f) :
    getBudget (mapBudget s bid f) bid' =
      (getBudget s bid').map fun b => if b.id == bid then f b else b := by
  unfold getBudget
  rw [mapBudget_budgets]
  refine find?_map_pred _ _ _ ?_
  intro b
  by_cases h : b.id == bid
  · simp only [h, if_pos]
    rw [(hf b).1]
  · simp [h]

theorem getBudget_mapBudget_ne (s : Store) (bid : Nat) (f : Budget → Budget)
    (bid' : Nat) (hf : preservesKey f) (hne : bid' ≠ bid) :
    getBudget (mapBudget s bid f) bid' = getBudget s bid' := by
  rw [getBudget_mapBudget s bid f bid' hf]
  cases hg : getBudget s bid' with
  | none => rfl
  | some b =>
    have : b.id = bid' := by simpa using List.find?_some hg
    simp [this, hne]

theorem getBudget_addHist (s : Store) (r : RolloverCalculation) (bid' : Nat) :
    getBudget (addHist s r) bid' = getBudget s bid' := rfl

/-! ### The category loop: error condition, no-op condition, result shape -/

theorem calculate_processStep (s : Store) (bid idx : Nat) (v : ℚ)
    (r : RolloverCalculation) (uid cid : String) (ym : YM)
    (hsep : sepStore s bid uid (prevMonth ym)) :
    calculate_rollover_amount (addHist (updateCBAt s bid idx v) r) uid cid ym =
      calculate_rollover_amount s uid cid ym := by
  rw [calculate_addHist, calculate_updateCBAt]
  exact hsep

theorem calcIsScalar_processStep (s : Store) (bid idx : Nat) (v : ℚ)
    (r : RolloverCalculation) (uid cid : String) (ym : YM)
    (hsep : sepStore s bid uid (prevMonth ym)) :
    calcIsScalar (addHist (updateCBAt s bid idx v) r) uid cid ym =
      calcIsScalar s uid cid ym := by
  unfold calcIsScalar
  rw [calculate_processStep s bid idx v r uid cid ym hsep]

theorem processCats_error_iff (uid : String) (ym : YM) (bid : Nat)
    (reason : String) :
    ∀ (cbs : List CategoryBudget) (idx : Nat) (s : Store),
      sepStore s bid uid (prevMonth ym) →
      (processCats uid ym bid reason s cbs idx = .error () ↔
        cbs.any (fun cb => calcIsScalar s uid cb.category_id ym) = true) := by
  intro cbs
  induction cbs with
  | nil =>
    intro idx s _
    simp [processCats]
  | cons cb rest ih =>
    intro idx s hsep
    cases hc : calculate_rollover_amount s uid cb.category_id ym with
    | scalar v =>
      simp [processCats, hc, calcIsScalar]
    | tuple r b0 p0 e0 sp0 =>
      have hscalar : calcIsScalar s uid cb.category_id ym = false := by
        simp [calcIsScalar, hc]
      by_cases hth : |r - cb.rollover_amount.getD 0| > 1 / 100
      · have hsep' : sepStore (addHist (updateCBAt s bid idx r)
            ⟨bid, cb.category_id, r, prevMonth ym, reason, b0, p0, e0, sp0⟩)
            bid uid (prevMonth ym) :=
          sepStore_addHist _ (sepStore_updateCBAt bid idx r hsep)
        have hrec := ih (idx + 1) _ hsep'
        have hcongr : ∀ cb' : CategoryBudget,
            calcIsScalar (addHist (updateCBAt s bid idx r)
              ⟨bid, cb.category_id, r, prevMonth ym, reason, b0, p0, e0, sp0⟩)
              uid cb'.category_id ym = calcIsScalar s uid cb'.category_id ym :=
          fun cb' => calcIsScalar_processStep s bid idx r _ uid cb'.category_id ym hsep
        simp only [processCats, hc, hth, if_pos]
        rw [hrec]
        simp only [List.any_cons, hscalar, Bool.false_or]
        constructor <;> intro h
        · rcases List.any_eq_true.mp h with ⟨cb', hcb', hval⟩
          exact List.any_eq_true.mpr ⟨cb', hcb', by rw [← hcongr cb']; exact hval⟩
        · rcases List.any_eq_true.mp h with ⟨cb', hcb', hval⟩
          exact List.any_eq_true.mpr ⟨cb', hcb', by rw [hcongr cb']; exact hval⟩
      · have hrec := ih (idx + 1) s hsep
        simp only [processCats, hc, hth, if_neg, not_false_iff]
        rw [hrec]
        simp [List.any_cons, hscalar]

theorem processCats_noop (uid : String) (ym : YM) (bid : Nat) (reason : String) :
    ∀ (cbs : List CategoryBudget) (idx : Nat) (s : Store),
      (∀ cb ∈ cbs, ∃ r b0 p0 e0 sp0,
        calculate_rollover_amount s uid cb.category_id ym = .tuple r b0 p0 e0 sp0 ∧
        |r - cb.rollover_amount.getD 0| ≤ 1 / 100) →
      processCats uid ym bid reason s cbs idx = .ok s := by
  intro cbs
  induction cbs with
  | nil => intro idx s _; rfl
  | cons cb rest ih =>
    intro idx s h
    obtain ⟨r, b0, p0, e0, sp0, hc, hth⟩ := h cb (List.mem_cons_self cb rest)
    simp only [processCats, hc, if_neg (not_lt.mpr hth)]
    exact ih (idx + 1) s fun cb' hcb' => h cb' (List.mem_cons_of_mem cb hcb')

/-! ### Shape of a successful category loop -/

theorem setRollover_append (pre : List CategoryBudget) (cb : CategoryBudget)
    (rest : List CategoryBudget) (v : ℚ) :
    setRollover (pre ++ cb :: rest) pre.length v =
      pre ++ { cb with rollover_amount := some v } :: rest := by
  induction pre with
  | nil => rfl
  | cons a pre ih => simp [setRollover, ih]

/-- The net effect of one loop iteration on one category row: update the
cached rollover when the recomputed value moved by more than 0.01, keep the
row otherwise. -/
def blendCB (s : Store) (uid : String) (ym : YM) (cb : CategoryBudget) :
    CategoryBudget :=
  if |calcNew s uid cb.category_id ym - cb.rollover_amount.getD 0| > 1 / 100
  then { cb with rollover_amount := some (calcNew s uid cb.category_id ym) }
  else cb

theorem blendCB_settled (s : Store) (uid : String) (ym : YM)
    (cb : CategoryBudget) :
    (blendCB s uid ym cb).category_id = cb.category_id ∧
    |calcNew s uid cb.category_id ym -
      (blendCB s uid ym cb).rollover_amount.getD 0| ≤ 1 / 100 := by
  unfold blendCB
  by_cases h : |calcNew s uid cb.category_id ym - cb.rollover_amount.getD 0| > 1 / 100
  · rw [if_pos h]
    refine ⟨rfl, ?_⟩
    have he : (some (calcNew s uid cb.category_id ym)).getD 0 =
        calcNew s uid cb.category_id ym := rfl
    rw [he, sub_self, abs_zero]
    norm_num
  · rw [if_neg h]
    exact ⟨rfl, le_of_not_lt h⟩

/-- A successful loop maps the processed suffix of the budget's category
rows through `blendCB` (evaluated at the loop's entry store: mid-loop
updates touch only the current month's rows, never the previous month's),
leaves every other budget and the transaction table unchanged, and appends
only history rows. -/
theorem addHist_hist (s : Store) (r : RolloverCalculation) :
    (addHist s r).rollover_calculations = s.rollover_calculations ++ [r] := rfl

theorem processCats_ok_shape (uid : String) (ym : YM) (bid : Nat)
    (reason : String) :
    ∀ (cbs : List CategoryBudget) (idx : Nat) (s s₂ : Store),
      sepStore s bid uid (prevMonth ym) →
      processCats uid ym bid reason s cbs idx = .ok s₂ →
      ∃ (G : List CategoryBudget → List CategoryBudget)
        (H : List RolloverCalculation),
        s₂ = { budgets := s.budgets.map fun b =>
                 if b.id == bid then { b with category_limits := G b.category_limits }
                 else b,
               transactions := s.transactions,
               rollover_calculations := s.rollover_calculations ++ H } ∧
        (∀ cl : List CategoryBudget,
          (G cl).map (·.category_id) = cl.map (·.category_id)) ∧
        (∀ pre : List CategoryBudget, pre.length = idx →
          G (pre ++ cbs) = pre ++ cbs.map (blendCB s uid ym)) := by
  intro cbs
  induction cbs with
  | nil =>
    intro idx s s₂ _ h
    have hs : s = s₂ := by
      have h' := h
      simp only [processCats, Except.ok.injEq] at h'
      exact h'
    refine ⟨fun cl => cl, [], ?_, fun cl => rfl, fun pre _ => by simp⟩
    rw [← hs]
    have hmap : (s.budgets.map fun b =>
        if b.id == bid then { b with category_limits := b.category_limits }
        else b) = s.budgets := by
      rw [List.map_congr_left fun (b : Budget) _ => ?_, List.map_id]
      by_cases hb : b.id == bid <;> simp [hb]
    cases s
    simp only [hmap, List.append_nil]
  | cons cb rest ih =>
    intro idx s s₂ hsep h
    cases hc : calculate_rollover_amount s uid cb.category_id ym with
    | scalar v => rw [processCats] at h; rw [hc] at h; exact Except.noConfusion h
    | tuple r b0 p0 e0 sp0 =>
      have hnew : calcNew s uid cb.category_id ym = r := by
        simp [calcNew, hc]
      by_cases hth : |r - cb.rollover_amount.getD 0| > 1 / 100
      · simp only [processCats, hc] at h
        rw [if_pos hth] at h
        set row : RolloverCalculation :=
          ⟨bid, cb.category_id, r, prevMonth ym, reason, b0, p0, e0, sp0⟩ with hrow
        have hsep' : sepStore (addHist (updateCBAt s bid idx r) row)
            bid uid (prevMonth ym) :=
          sepStore_addHist _ (sepStore_updateCBAt bid idx r hsep)
        obtain ⟨G', H', hshape, hcats, halign⟩ := ih (idx + 1) _ s₂ hsep' h
        have hblend : ∀ cb' : CategoryBudget,
            blendCB (addHist (updateCBAt s bid idx r) row) uid ym cb' =
              blendCB s uid ym cb' := by
          intro cb'
          unfold blendCB calcNew
          rw [calculate_processStep s bid idx r row uid cb'.category_id ym hsep]
        refine ⟨fun cl => G' (setRollover cl idx r), row :: H', ?_, ?_, ?_⟩
        · rw [hshape]
          simp only [addHist_budgets, addHist_transactions, addHist_hist,
            updateCBAt, mapBudget_budgets, mapBudget_transactions, mapBudget_hist,
            List.map_map, List.append_assoc, List.singleton_append]
          congr 1
          refine List.map_congr_left ?_
          intro b _
          by_cases hb : b.id == bid
          · simp [Function.comp, hb]
          · simp [Function.comp, hb]
        · intro cl
          rw [hcats, setRollover_map_categoryId]
        · intro pre hpre
          have e₁ : setRollover (pre ++ cb :: rest) idx r =
              pre ++ { cb with rollover_amount := some r } :: rest := by
            rw [← hpre]
            exact setRollover_append pre cb rest r
          have e₂ := halign (pre ++ [{ cb with rollover_amount := some r }])
            (by simp [hpre])
          have e₃ : pre ++ { cb with rollover_amount := some r } :: rest =
              (pre ++ [{ cb with rollover_amount := some r }]) ++ rest := by simp
          show G' (setRollover (pre ++ cb :: rest) idx r) =
            pre ++ (cb :: rest).map (blendCB s uid ym)
          rw [e₁, e₃, e₂]
          have e₄ : rest.map (blendCB (addHist (updateCBAt s bid idx r) row) uid ym) =
              rest.map (blendCB s uid ym) :=
            List.map_congr_left fun cb' _ => hblend cb'
          rw [e₄]
          have e₅ : { cb with rollover_amount := some r } = blendCB s uid ym cb := by
            unfold blendCB
            rw [hnew, if_pos hth]
          rw [e₅]
          simp
      · simp only [processCats, hc] at h
        rw [if_neg hth] at h
        obtain ⟨G', H', hshape, hcats, halign⟩ := ih (idx + 1) s s₂ hsep h
        refine ⟨G', H', hshape, hcats, ?_⟩
        intro pre hpre
        have e₂ := halign (pre ++ [cb]) (by simp [hpre])
        have e₃ : pre ++ cb :: rest = (pre ++ [cb]) ++ rest := by simp
        rw [e₃, e₂]
        have e₅ : blendCB s uid ym cb = cb := by
          unfold blendCB
          rw [hnew, if_neg hth]
        simp [e₅]

theorem getBudget_id {s : Store} {bid : Nat} {b : Budget}
    (h : getBudget s bid = some b) : b ∈ s.budgets ∧ b.id = bid := by
  refine ⟨List.mem_of_find?_eq_some h, ?_⟩
  have := List.find?_some h
  simpa using this

/-- `calculate_rollover_amount` never reads the history table. -/
theorem calculate_hist_irrel (s₁ s₂ : Store) (hB : s₁.budgets = s₂.budgets)
    (hT : s₁.transactions = s₂.transactions) (uid cid : String) (ym : YM) :
    calculate_rollover_amount s₁ uid cid ym =
      calculate_rollover_amount s₂ uid cid ym := by
  cases s₁
  cases s₂
  cases hB
  cases hT
  rfl

/-- Corollaries of `processCats_ok_shape` packaged for the walk lemmas. -/
theorem processCats_ok_main (uid : String) (ym : YM) (bid : Nat)
    (reason : String) (cbs : List CategoryBudget) (s s₂ : Store)
    (hsep : sepStore s bid uid (prevMonth ym))
    (hpc : processCats uid ym bid reason s cbs 0 = .ok s₂) :
    (∀ bid', bid' ≠ bid → getBudget s₂ bid' = getBudget s bid') ∧
    (∀ (cid : String) (ym₀ : YM), sepStore s bid uid (prevMonth ym₀) →
      calculate_rollover_amount s₂ uid cid ym₀ =
        calculate_rollover_amount s uid cid ym₀) ∧
    (∀ b, getBudget s bid = some b → b.category_limits = cbs →
      getBudget s₂ bid =
        some { b with category_limits := cbs.map (blendCB s uid ym) }) := by
  obtain ⟨G, H, hshape, hcats, halign⟩ :=
    processCats_ok_shape uid ym bid reason cbs 0 s s₂ hsep hpc
  have hmapped : ∀ bid', getBudget s₂ bid' =
      (getBudget s bid').map fun b =>
        if b.id == bid then { b with category_limits := G b.category_limits }
        else b := by
    intro bid'
    rw [hshape]
    exact find?_map_pred s.budgets _ _ fun b => by
      by_cases hb : b.id == bid <;> simp [hb]
  have hcalc : ∀ (cid : String) (ym₀ : YM), sepStore s bid uid (prevMonth ym₀) →
      calculate_rollover_amount s₂ uid cid ym₀ =
        calculate_rollover_amount s uid cid ym₀ := by
    intro cid ym₀ hsep₀
    rw [hshape]
    refine Eq.trans (calculate_hist_irrel _
      (mapBudget s bid fun b => { b with category_limits := G b.category_limits })
      rfl rfl uid cid ym₀) ?_
    refine calculate_mapBudget s bid _ uid cid ym₀
      (preservesKey_setCats G) ?_
    intro b hb hid hu hy
    exact absurd ⟨hu, hy⟩ (hsep₀ b hb hid)
  refine ⟨?_, hcalc, ?_⟩
  · intro bid' hne
    rw [hmapped bid']
    cases hg : getBudget s bid' with
    | none => rfl
    | some b =>
      have : b.id = bid' := (getBudget_id hg).2
      simp [this, hne]
  · intro b hg hcl
    rw [hmapped bid, hg]
    have hid : b.id = bid := (getBudget_id hg).2
    have hG : G b.category_limits = cbs.map (blendCB s uid ym) := by
      rw [hcl]
      simpa using halign [] rfl
    simp [hid, hG]

/-! ### Flag commutation and the pure step -/

theorem mapBudget_eq_self (s : Store) (bid : Nat) (f : Budget → Budget)
    (h : ∀ b ∈ s.budgets, b.id = bid → f b = b) :
    mapBudget s bid f = s := by
  cases s with
  | mk budgets transactions hist =>
    simp only [mapBudget, Store.mk.injEq, and_true]
    rw [List.map_congr_left fun (b : Budget) hb => ?_, List.map_id]
    by_cases hbid : b.id == bid
    · rw [if_pos hbid, h b hb (by simpa using hbid)]
      rfl
    · rw [if_neg hbid]
      rfl

/-- Setting the two rollover flags right after presetting
`rollover_needs_recalc` is the same as setting them directly. -/
theorem setBudgetFlags_setNeedsRecalc (s : Store) (bid : Nat) (now : ℤ) :
    setBudgetFlags (setNeedsRecalc s bid true) bid now false =
      setBudgetFlags s bid now false := by
  unfold setBudgetFlags setNeedsRecalc mapBudget
  cases s with
  | mk budgets transactions hist =>
    simp only [Store.mk.injEq, and_true, List.map_map]
    refine List.map_congr_left ?_
    intro b _
    by_cases hbid : b.id == bid
    · simp [Function.comp, hbid]
    · simp [Function.comp, hbid]

theorem updateCBAt_setNeedsRecalc (s : Store) (bid : Nat) (f : Nat)
    (idx : Nat) (v : ℚ) :
    updateCBAt (setNeedsRecalc s f true) bid idx v =
      setNeedsRecalc (updateCBAt s bid idx v) f true := by
  unfold updateCBAt setNeedsRecalc mapBudget
  cases s with
  | mk budgets transactions hist =>
    simp only [Store.mk.injEq, and_true, List.map_map]
    refine List.map_congr_left ?_
    intro b _
    by_cases hb : b.id == bid <;> by_cases hf : b.id == f <;>
      simp [Function.comp, hb, hf]

theorem addHist_setNeedsRecalc (s : Store) (f : Nat) (r : RolloverCalculation) :
    addHist (setNeedsRecalc s f true) r = setNeedsRecalc (addHist s r) f true := rfl

/-- The category loop commutes with a pending needs-recalc flag: the flag
is carried through untouched. -/
theorem processCats_setNeedsRecalc (uid : String) (ym : YM) (bid : Nat)
    (reason : String) (f : Nat) :
    ∀ (cbs : List CategoryBudget) (idx : Nat) (s : Store),
      processCats uid ym bid reason (setNeedsRecalc s f true) cbs idx =
        (processCats uid ym bid reason s cbs idx).map
          fun s' => setNeedsRecalc s' f true := by
  intro cbs
  induction cbs with
  | nil => intro idx s; rfl
  | cons cb rest ih =>
    intro idx s
    have hcalc : calculate_rollover_amount (setNeedsRecalc s f true)
        uid cb.category_id ym = calculate_rollover_amount s uid cb.category_id ym :=
      calculate_setNeedsRecalc s f true uid cb.category_id ym
    cases hc : calculate_rollover_amount s uid cb.category_id ym with
    | scalar v =>
      simp only [processCats, hcalc, hc, Except.map]
    | tuple r b0 p0 e0 sp0 =>
      simp only [processCats, hcalc, hc]
      by_cases hth : |r - cb.rollover_amount.getD 0| > 1 / 100
      · rw [if_pos hth, if_pos hth]
        rw [updateCBAt_setNeedsRecalc, addHist_setNeedsRecalc, ih]
      · rw [if_neg hth, if_neg hth, ih]

/-- The committed result of one successful `_perform_rollover_recalculation`
as a total function on the session-visible store: fetch the month's budget,
run the category loop, set the month's rollover flags. -/
def performOk (uid : String) (now : ℤ) (reason : String) (s : Store)
    (p : Nat × YM) : Store :=
  match findBudget s uid p.2 with
  | none => s
  | some B =>
    match processCats uid p.2 p.1 reason s B.category_limits 0 with
    | .error _ => s
    | .ok s₂ => setBudgetFlags s₂ p.1 now false

/-- Pure description of the chain walk: the committed store plus the id of
the last failed month whose re-set `rollover_needs_recalc` flag is still
uncommitted. A failing month rolls the session back (dropping the previous
pending flag) and leaves its own flag pending; a succeeding month commits
everything. The final `db.commit()` commits the last pending flag. -/
def pureWalk (uid : String) (now : ℤ) (reason : String) :
    Store → Option Nat → List (Nat × YM) → Store
  | c, pend, [] => applyPend c pend
  | c, pend, p :: rest =>
    if monthFails c uid p.2 then pureWalk uid now reason c (some p.1) rest
    else pureWalk uid now reason (performOk uid now reason (applyPend c pend) p)
      none rest

theorem validAt_congr {s₁ s₂ : Store} (h : structOf s₁ = structOf s₂)
    (uid : String) (p : Nat × YM) :
    validAt s₁ uid p ↔ validAt s₂ uid p := by
  have hb := ((structOf_eq_iff s₁ s₂).mp h).1
  constructor
  · rintro ⟨b, hbmem, hid, hu, hy⟩
    have hm : projB b ∈ s₂.budgets.map projB := by
      rw [← hb]
      exact List.mem_map.mpr ⟨b, hbmem, rfl⟩
    rcases List.mem_map.mp hm with ⟨b', hb', hbb⟩
    exact ⟨b', hb', Eq.trans (congrArg (fun t => t.1) hbb) hid,
      Eq.trans (congrArg (fun t => t.2.1) hbb) hu,
      Eq.trans (congrArg (fun t => t.2.2.1) hbb) hy⟩
  · rintro ⟨b, hbmem, hid, hu, hy⟩
    have hm : projB b ∈ s₁.budgets.map projB := by
      rw [hb]
      exact List.mem_map.mpr ⟨b, hbmem, rfl⟩
    rcases List.mem_map.mp hm with ⟨b', hb', hbb⟩
    exact ⟨b', hb', Eq.trans (congrArg (fun t => t.1) hbb) hid,
      Eq.trans (congrArg (fun t => t.2.1) hbb) hu,
      Eq.trans (congrArg (fun t => t.2.2.1) hbb) hy⟩

/-- One loop iteration of `invalidate_rollover_chain`, started on a session
whose only uncommitted change is the pending flag of the last failed month,
behaves like the pure step: a failing month keeps the committed store and
replaces the pending flag with its own; a succeeding month commits
everything. -/
theorem chainStep_simulation (uid : String) (now : ℤ) (reason : String)
    (c : Store) (pend : Option Nat) (p : Nat × YM)
    (hwf : wfStore c) (hv : validAt c uid p) :
    chainStep uid now reason ⟨c, applyPend c pend⟩ p =
      if monthFails c uid p.2 then ⟨c, applyPend c (some p.1)⟩
      else ⟨performOk uid now reason (applyPend c pend) p,
            performOk uid now reason (applyPend c pend) p⟩ := by
  have hstruct_cur : structOf (applyPend c pend) = structOf c :=
    structOf_applyPend c pend
  have hwf_cur : wfStore (applyPend c pend) := (wfStore_congr hstruct_cur).mpr hwf
  have hv_cur : validAt (applyPend c pend) uid p :=
    (validAt_congr hstruct_cur uid p).mpr hv
  obtain ⟨B₀, hfind₀, hB₀mem, hB₀id, hB₀u, hB₀y⟩ :=
    findBudget_of_validAt hwf_cur hv_cur
  have hsep_cur : sepStore (applyPend c pend) p.1 uid (prevMonth p.2) :=
    sepStore_of_wf hwf_cur hv_cur
  have hfind₁ : findBudget (setNeedsRecalc (applyPend c pend) p.1 true) uid p.2 =
      some { B₀ with rollover_needs_recalc := true } := by
    unfold setNeedsRecalc
    rw [findBudget_mapBudget _ _ _ _ _ (preservesKey_setFlag true), hfind₀]
    simp [hB₀id]
  have hPC : processCats uid p.2 p.1 reason
      (setNeedsRecalc (applyPend c pend) p.1 true) B₀.category_limits 0 =
      (processCats uid p.2 p.1 reason (applyPend c pend) B₀.category_limits 0).map
        fun s' => setNeedsRecalc s' p.1 true :=
    processCats_setNeedsRecalc uid p.2 p.1 reason p.1 B₀.category_limits 0
      (applyPend c pend)
  have hfail_iff : monthFails c uid p.2 = true ↔
      processCats uid p.2 p.1 reason (applyPend c pend) B₀.category_limits 0 =
        .error () := by
    rw [← monthFails_congr hstruct_cur uid p.2]
    unfold monthFails
    rw [hfind₀]
    exact (processCats_error_iff uid p.2 p.1 reason B₀.category_limits 0
      (applyPend c pend) hsep_cur).symm
  by_cases hM : monthFails c uid p.2 = true
  · rw [if_pos hM]
    have herr := hfail_iff.mp hM
    have hperf : perform_rollover_recalculation
        ⟨c, setNeedsRecalc (applyPend c pend) p.1 true⟩ uid p.2 now reason =
        .error ⟨c, c⟩ := by
      simp only [perform_rollover_recalculation, hfind₁, hB₀id, hPC, herr, Except.map]
    have hany : (c.budgets.any fun b => b.id == p.1) = true := by
      obtain ⟨b, hbmem, hbid, _, _⟩ := hv
      exact List.any_eq_true.mpr ⟨b, hbmem, by simp [hbid]⟩
    simp only [chainStep, hperf, hany, if_true]
    rfl
  · rw [if_neg hM]
    obtain ⟨s₂, hs₂⟩ : ∃ s₂, processCats uid p.2 p.1 reason (applyPend c pend)
        B₀.category_limits 0 = .ok s₂ := by
      cases hres : processCats uid p.2 p.1 reason (applyPend c pend)
          B₀.category_limits 0 with
      | error u => cases u; exact absurd (hfail_iff.mpr hres) hM
      | ok s₂ => exact ⟨s₂, rfl⟩
    have hperf : perform_rollover_recalculation
        ⟨c, setNeedsRecalc (applyPend c pend) p.1 true⟩ uid p.2 now reason =
        .ok ⟨setBudgetFlags s₂ p.1 now false, setBudgetFlags s₂ p.1 now false⟩ := by
      simp only [perform_rollover_recalculation, hfind₁, hB₀id, hPC, hs₂, Except.map]
      rw [setBudgetFlags_setNeedsRecalc]
    have hPO : performOk uid now reason (applyPend c pend) p =
        setBudgetFlags s₂ p.1 now false := by
      simp only [performOk, hfind₀, hs₂]
    simp only [chainStep, hperf, hPO]

theorem processCats_ok_structOf (uid : String) (ym : YM) (bid : Nat)
    (reason : String) :
    ∀ (cbs : List CategoryBudget) (idx : Nat) (s s₂ : Store),
      processCats uid ym bid reason s cbs idx = .ok s₂ →
      structOf s₂ = structOf s := by
  intro cbs
  induction cbs with
  | nil =>
    intro idx s s₂ h
    simp only [processCats, Except.ok.injEq] at h
    rw [← h]
  | cons cb rest ih =>
    intro idx s s₂ h
    cases hc : calculate_rollover_amount s uid cb.category_id ym with
    | scalar v => rw [processCats] at h; rw [hc] at h; exact Except.noConfusion h
    | tuple r b0 p0 e0 sp0 =>
      simp only [processCats, hc] at h
      by_cases hth : |r - cb.rollover_amount.getD 0| > 1 / 100
      · rw [if_pos hth] at h
        rw [ih _ _ _ h, structOf_addHist, structOf_updateCBAt]
      · rw [if_neg hth] at h
        exact ih _ _ _ h

theorem structOf_performOk (uid : String) (now : ℤ) (reason : String)
    (s : Store) (p : Nat × YM) :
    structOf (performOk uid now reason s p) = structOf s := by
  unfold performOk
  cases hfb : findBudget s uid p.2 with
  | none => rfl
  | some B =>
    cases hpc : processCats uid p.2 p.1 reason s B.category_limits 0 with
    | error u => simp only [hpc]
    | ok s₂ =>
      simp only [hpc]
      rw [structOf_setBudgetFlags, processCats_ok_structOf uid p.2 p.1 reason
        B.category_limits 0 s s₂ hpc]

theorem chainList_validAt (s : Store) (uid : String) (changed : YM) :
    ∀ p ∈ chainList s uid changed, validAt s uid p := by
  intro p hp
  unfold chainList at hp
  rw [(sortByYm_perm _).mem_iff] at hp
  rcases List.mem_map.mp hp with ⟨b, hbf, rfl⟩
  have hf := List.mem_filter.mp hbf
  have hu : b.user_id = uid := by
    have := hf.2
    simp only [Bool.and_eq_true, beq_iff_eq] at this
    exact this.1
  exact ⟨b, hf.1, rfl, hu, rfl⟩

/-- The loop of `invalidate_rollover_chain`, started right after a commit,
is simulated by `pureWalk`. -/
theorem foldl_chainStep_simulation (uid : String) (now : ℤ) (reason : String) :
    ∀ (L : List (Nat × YM)) (c : Store) (pend : Option Nat),
      wfStore c → (∀ p ∈ L, validAt c uid p) →
      (L.foldl (chainStep uid now reason) ⟨c, applyPend c pend⟩).current =
        pureWalk uid now reason c pend L := by
  intro L
  induction L with
  | nil => intro c pend _ _; rfl
  | cons p rest ih =>
    intro c pend hwf hv
    rw [List.foldl_cons, chainStep_simulation uid now reason c pend p hwf
      (hv p (List.mem_cons_self p rest))]
    by_cases hM : monthFails c uid p.2 = true
    · rw [if_pos hM, pureWalk, if_pos hM]
      exact ih c (some p.1) hwf fun q hq => hv q (List.mem_cons_of_mem p hq)
    · rw [if_neg hM, pureWalk, if_neg hM]
      have hstruct : structOf (performOk uid now reason (applyPend c pend) p) =
          structOf c :=
        (structOf_performOk uid now reason (applyPend c pend) p).trans
          (structOf_applyPend c pend)
      have hwf' : wfStore (performOk uid now reason (applyPend c pend) p) :=
        (wfStore_congr hstruct).mpr hwf
      have hv' : ∀ q ∈ rest, validAt (performOk uid now reason (applyPend c pend) p) uid q :=
        fun q hq => (validAt_congr hstruct uid q).mpr (hv q (List.mem_cons_of_mem p hq))
      exact ih _ none hwf' hv'

/-- `invalidate_rollover_chain` computes `pureWalk` over the sorted list of
the user's later months. -/
theorem invalidate_chain_eq_pureWalk (s : Store) (uid : String) (changed : YM)
    (now : ℤ) (reason : String) (hwf : wfStore s) :
    invalidate_rollover_chain s uid changed now reason =
      pureWalk uid now reason s none (chainList s uid changed) := by
  unfold invalidate_rollover_chain invalidate_rollover_chain_body
  exact foldl_chainStep_simulation uid now reason (chainList s uid changed) s none
    hwf (chainList_validAt s uid changed)

/-! ### `getBudget` helpers and the per-month effect of a successful step -/

theorem getBudget_of_mem {s : Store} {bid : Nat} {b : Budget}
    (hnd : (s.budgets.map (·.id)).Nodup) (hmem : b ∈ s.budgets)
    (hid : b.id = bid) : getBudget s bid = some b := by
  cases hg : getBudget s bid with
  | none =>
    exact absurd (List.find?_eq_none.mp hg b hmem) (by simp [hid])
  | some b' =>
    obtain ⟨hb'mem, hb'id⟩ := getBudget_id hg
    rw [budget_unique_id hnd hmem hb'mem (by rw [hid, hb'id])]

theorem getBudget_applyPend_ne (c : Store) (pend : Option Nat) (bid : Nat)
    (hne : ∀ f, pend = some f → f ≠ bid) :
    getBudget (applyPend c pend) bid = getBudget c bid := by
  cases pend with
  | none => rfl
  | some f =>
    exact getBudget_mapBudget_ne c f _ bid (preservesKey_setFlag true)
      (fun h => hne f rfl h.symm)

theorem catsOf_getBudget_applyPend (c : Store) (pend : Option Nat) (bid : Nat) :
    catsOf (getBudget (applyPend c pend) bid) = catsOf (getBudget c bid) := by
  cases pend with
  | none => rfl
  | some f =>
    unfold applyPend setNeedsRecalc
    rw [getBudget_mapBudget _ _ _ _ (preservesKey_setFlag true)]
    cases hg : getBudget c bid with
    | none => rfl
    | some b =>
      by_cases hb : b.id = f <;> simp [catsOf, hb]

theorem getBudget_applyPend_self (c : Store) (f : Nat) (b₀ : Budget)
    (hg : getBudget c f = some b₀) :
    getBudget (applyPend c (some f)) f =
      some { b₀ with rollover_needs_recalc := true } := by
  show getBudget (setNeedsRecalc c f true) f = _
  unfold setNeedsRecalc
  rw [getBudget_mapBudget _ _ _ _ (preservesKey_setFlag true), hg]
  have : b₀.id = f := (getBudget_id hg).2
  simp [this]

/-- A successful month's recomputation does not change any budget with a
different id. -/
theorem getBudget_performOk_ne (uid : String) (now : ℤ) (reason : String)
    (s : Store) (p : Nat × YM) (bid : Nat)
    (hwf : wfStore s) (hv : validAt s uid p) (hne : bid ≠ p.1) :
    getBudget (performOk uid now reason s p) bid = getBudget s bid := by
  unfold performOk
  cases hfb : findBudget s uid p.2 with
  | none => rfl
  | some B =>
    have hsep : sepStore s p.1 uid (prevMonth p.2) := sepStore_of_wf hwf hv
    cases hpc : processCats uid p.2 p.1 reason s B.category_limits 0 with
    | error u => simp only [hpc]
    | ok s₂ =>
      simp only [hpc]
      obtain ⟨hlocal, _, _⟩ :=
        processCats_ok_main uid p.2 p.1 reason B.category_limits s s₂ hsep hpc
      rw [← hlocal bid hne]
      exact getBudget_mapBudget_ne s₂ p.1 _ bid (preservesKey_setBoth now false) hne

/-- The effect of a successful month's recomputation on its own budget row:
category rollovers are blended, the flags are set. -/
theorem getBudget_performOk_self (uid : String) (now : ℤ) (reason : String)
    (s : Store) (p : Nat × YM)
    (hwf : wfStore s) (hv : validAt s uid p)
    (hM : monthFails s uid p.2 = false) :
    ∃ B, getBudget s p.1 = some B ∧
      getBudget (performOk uid now reason s p) p.1 =
        some { B with
          category_limits := B.category_limits.map (blendCB s uid p.2),
          rollover_needs_recalc := false,
          rollover_last_calculated := some now } := by
  obtain ⟨B, hfb, hBmem, hBid, hBu, hBy⟩ := findBudget_of_validAt hwf hv
  have hgB : getBudget s p.1 = some B := getBudget_of_mem hwf.1 hBmem hBid
  have hsep : sepStore s p.1 uid (prevMonth p.2) := sepStore_of_wf hwf hv
  have hnofail : B.category_limits.any
      (fun cb => calcIsScalar s uid cb.category_id p.2) = false := by
    unfold monthFails at hM
    rw [hfb] at hM
    exact hM
  obtain ⟨s₂, hpc⟩ : ∃ s₂, processCats uid p.2 p.1 reason s B.category_limits 0 =
      .ok s₂ := by
    cases hres : processCats uid p.2 p.1 reason s B.category_limits 0 with
    | error u =>
      cases u
      have := (processCats_error_iff uid p.2 p.1 reason B.category_limits 0 s
        hsep).mp hres
      rw [this] at hnofail
      exact Bool.noConfusion hnofail
    | ok s₂ => exact ⟨s₂, rfl⟩
  obtain ⟨_, _, hself⟩ :=
    processCats_ok_main uid p.2 p.1 reason B.category_limits s s₂ hsep hpc
  have hgb₂ := hself B hgB rfl
  refine ⟨B, hgB, ?_⟩
  unfold performOk
  rw [hfb]
  simp only [hpc]
  unfold setBudgetFlags
  rw [getBudget_mapBudget _ _ _ _ (preservesKey_setBoth now false), hgb₂]
  simp [hBid]

/-- A successful month's recomputation only rewrites the cached rollover of
its own (current-month) budget, so `calculate_rollover_amount` for any
month whose previous month is a different month is unchanged. -/
theorem calculate_performOk (uid : String) (now : ℤ) (reason : String)
    (s : Store) (p : Nat × YM) (cid : String) (ym₀ : YM)
    (hwf : wfStore s) (hv : validAt s uid p) (hne : p.2 ≠ prevMonth ym₀) :
    calculate_rollover_amount (performOk uid now reason s p) uid cid ym₀ =
      calculate_rollover_amount s uid cid ym₀ := by
  have hsep₀ : sepStore s p.1 uid (prevMonth ym₀) := by
    intro b hb hid huy
    obtain ⟨b₀, hb₀, hid₀, hu₀, hy₀⟩ := hv
    have hbb : b = b₀ := budget_unique_id hwf.1 hb hb₀ (by rw [hid, hid₀])
    rw [hbb, hy₀] at huy
    exact hne huy.2
  unfold performOk
  cases hfb : findBudget s uid p.2 with
  | none => rfl
  | some B =>
    have hsepP : sepStore s p.1 uid (prevMonth p.2) := sepStore_of_wf hwf hv
    cases hpc : processCats uid p.2 p.1 reason s B.category_limits 0 with
    | error u => simp only [hpc]
    | ok s₂ =>
      simp only [hpc]
      rw [calculate_setBudgetFlags]
      obtain ⟨_, hcalc, _⟩ :=
        processCats_ok_main uid p.2 p.1 reason B.category_limits s s₂ hsepP hpc
      exact hcalc cid ym₀ hsep₀

theorem ne_of_ymKey_lt {a b : YM} (h : ymKey a < ymKey b) : a ≠ b :=
  fun he => absurd h (by rw [he]; exact lt_irrefl _)

theorem ids_ne_of_validAt {c : Store} {uid : String} (hwf : wfStore c)
    {p q : Nat × YM} (hp : validAt c uid p) (hq : validAt c uid q)
    (hne : p.2 ≠ q.2) : q.1 ≠ p.1 := by
  intro h
  obtain ⟨bp, hbp, hidp, _, hyp⟩ := hp
  obtain ⟨bq, hbq, hidq, _, hyq⟩ := hq
  have hbb : bq = bp := budget_unique_id hwf.1 hbq hbp (by rw [hidq, h, hidp])
  exact hne (by rw [← hyp, ← hbb, hyq])

/-- Master postconditions of the pure chain walk, by one induction along the
processed list: (1) the structural skeleton is preserved; (2) budgets not
processed and not pending are untouched; (3) category limits of budgets not
processed are untouched (a pending flag only touches a flag); (4) every
successfully recomputed month ends with `rollover_needs_recalc = false` and
a fresh `rollover_last_calculated`; (5) a failing month's stored category
rollovers are unchanged; (6) a failing month followed immediately by a
succeeding month (or by nothing) keeps `rollover_needs_recalc = true`;
(7) a pending flag survives when the first processed month succeeds (or the
list is empty); (8) after the walk, every successfully recomputed month is
settled: recomputing any of its categories against the final store moves
the cached value by at most 0.01; (9) the walk does not change
`calculate_rollover_amount` for months whose previous month is not in the
list. -/
theorem pureWalk_master (uid : String) (now : ℤ) (reason : String) :
    ∀ (L : List (Nat × YM)) (c : Store) (pend : Option Nat),
      wfStore c →
      (∀ p ∈ L, validAt c uid p) →
      (L.Pairwise fun a b => ymKey a.2 < ymKey b.2) →
      (∀ f, pend = some f → ∀ p ∈ L, p.1 ≠ f) →
      structOf (pureWalk uid now reason c pend L) = structOf c ∧
      (∀ bid : Nat, (∀ p ∈ L, p.1 ≠ bid) → (∀ f, pend = some f → f ≠ bid) →
        getBudget (pureWalk uid now reason c pend L) bid = getBudget c bid) ∧
      (∀ bid : Nat, (∀ p ∈ L, p.1 ≠ bid) →
        catsOf (getBudget (pureWalk uid now reason c pend L) bid) =
          catsOf (getBudget c bid)) ∧
      (∀ p ∈ L, monthFails c uid p.2 = false →
        ∃ b', getBudget (pureWalk uid now reason c pend L) p.1 = some b' ∧
          b'.rollover_needs_recalc = false ∧
          b'.rollover_last_calculated = some now) ∧
      (∀ p ∈ L, monthFails c uid p.2 = true →
        catsOf (getBudget (pureWalk uid now reason c pend L) p.1) =
          catsOf (getBudget c p.1)) ∧
      (∀ (L₁ : List (Nat × YM)) (K : Nat × YM) (rest' : List (Nat × YM)),
        L = L₁ ++ K :: rest' → monthFails c uid K.2 = true →
        (rest' = [] ∨ ∃ q rest'', rest' = q :: rest'' ∧
          monthFails c uid q.2 = false) →
        ∃ b', getBudget (pureWalk uid now reason c pend L) K.1 = some b' ∧
          b'.rollover_needs_recalc = true) ∧
      (∀ f, pend = some f →
        (L = [] ∨ ∃ q rest'', L = q :: rest'' ∧ monthFails c uid q.2 = false) →
        ∀ b₀, getBudget c f = some b₀ →
          ∃ b', getBudget (pureWalk uid now reason c pend L) f = some b' ∧
            b'.rollover_needs_recalc = true) ∧
      (∀ p ∈ L, monthFails c uid p.2 = false →
        ∀ b', getBudget (pureWalk uid now reason c pend L) p.1 = some b' →
          ∀ cb ∈ b'.category_limits,
            calcIsScalar (pureWalk uid now reason c pend L) uid
              cb.category_id p.2 = false ∧
            |calcNew (pureWalk uid now reason c pend L) uid cb.category_id p.2 -
              cb.rollover_amount.getD 0| ≤ 1 / 100) ∧
      (∀ (cid : String) (ym₀ : YM), (∀ p ∈ L, p.2 ≠ prevMonth ym₀) →
        calculate_rollover_amount (pureWalk uid now reason c pend L) uid cid ym₀ =
          calculate_rollover_amount c uid cid ym₀) := by
  intro L
  induction L with
  | nil =>
    intro c pend hwf hv hpair hpendc
    refine ⟨structOf_applyPend c pend,
      fun bid _ hpendne => getBudget_applyPend_ne c pend bid hpendne,
      fun bid _ => catsOf_getBudget_applyPend c pend bid,
      fun p hp => absurd hp (List.not_mem_nil p),
      fun p hp => absurd hp (List.not_mem_nil p),
      ?_, ?_,
      fun p hp => absurd hp (List.not_mem_nil p),
      fun cid ym₀ _ => calculate_applyPend c pend uid cid ym₀⟩
    · intro L₁ K rest' hsplit
      exact absurd hsplit (by cases L₁ <;> simp)
    · intro f hf _ b₀ hb₀
      subst hf
      exact ⟨_, getBudget_applyPend_self c f b₀ hb₀, rfl⟩
  | cons p rest ih =>
    intro c pend hwf hv hpair hpendc
    have hvp : validAt c uid p := hv p (List.mem_cons_self p rest)
    have hvrest : ∀ q ∈ rest, validAt c uid q :=
      fun q hq => hv q (List.mem_cons_of_mem p hq)
    have hpair' : rest.Pairwise fun a b => ymKey a.2 < ymKey b.2 :=
      (List.pairwise_cons.mp hpair).2
    have hheadlt : ∀ q ∈ rest, ymKey p.2 < ymKey q.2 :=
      (List.pairwise_cons.mp hpair).1
    have hidsne : ∀ q ∈ rest, q.1 ≠ p.1 := fun q hq =>
      ids_ne_of_validAt hwf hvp (hvrest q hq) (ne_of_ymKey_lt (hheadlt q hq))
    have hprevne : ∀ q ∈ rest, q.2 ≠ prevMonth p.2 := by
      intro q hq he
      have h1 := hheadlt q hq
      have h2 := ymKey_prevMonth_lt p.2
      rw [he] at h1
      exact absurd (h1.trans h2) (lt_irrefl _)
    by_cases hM : monthFails c uid p.2 = true
    · -- the month's recomputation raises; the session is rolled back and
      -- only this month's flag is left pending
      simp only [pureWalk, hM, if_true]
      obtain ⟨ihA, ihE, ihE', ihB, ihC, ihD, ihD0, ihF, ihG⟩ :=
        ih c (some p.1) hwf hvrest hpair'
          (fun f hf q hq => by
            injection hf with hf'
            rw [← hf']
            exact hidsne q hq)
      refine ⟨ihA, ?_, fun bid hLne => ihE' bid
          (fun q hq => hLne q (List.mem_cons_of_mem p hq)),
        ?_, ?_, ?_, ?_, ?_, fun cid ym₀ hne => ihG cid ym₀
          (fun q hq => hne q (List.mem_cons_of_mem p hq))⟩
      · intro bid hLne hpendne
        exact ihE bid (fun q hq => hLne q (List.mem_cons_of_mem p hq))
          (fun f hf => by
            injection hf with hf'
            rw [← hf']
            exact hLne p (List.mem_cons_self p rest))
      · intro q hq hqM
        rcases List.mem_cons.mp hq with rfl | hq'
        · rw [hqM] at hM
          exact Bool.noConfusion hM
        · exact ihB q hq' hqM
      · intro q hq hqM
        rcases List.mem_cons.mp hq with rfl | hq'
        · exact ihE' q.1 (fun r hr => hidsne r hr)
        · exact ihC q hq' hqM
      · intro L₁ K rest' hsplit hKM hnext
        cases L₁ with
        | nil =>
          simp only [List.nil_append, List.cons.injEq] at hsplit
          obtain ⟨rfl, rfl⟩ := hsplit
          obtain ⟨bp, hbp, hidp, _, _⟩ := hvp
          exact ihD0 p.1 rfl hnext bp (getBudget_of_mem hwf.1 hbp hidp)
        | cons a L₁' =>
          simp only [List.cons_append, List.cons.injEq] at hsplit
          exact ihD L₁' K rest' hsplit.2 hKM hnext
      · intro f hf hcond b₀ hb₀
        rcases hcond with h | ⟨q, rest'', heq, hqM⟩
        · exact absurd h (by simp)
        · simp only [List.cons.injEq] at heq
          rw [← heq.1] at hqM
          rw [hqM] at hM
          exact Bool.noConfusion hM
      · intro q hq hqM b' hb' cb hcb
        rcases List.mem_cons.mp hq with rfl | hq'
        · rw [hqM] at hM
          exact Bool.noConfusion hM
        · exact ihF q hq' hqM b' hb' cb hcb
    · -- the month succeeds: everything pending is committed
      have hMf : monthFails c uid p.2 = false := by
        cases hres : monthFails c uid p.2 with
        | false => rfl
        | true => exact absurd hres hM
      simp only [pureWalk, hMf, Bool.false_eq_true, if_false]
      have hstructAP : structOf (applyPend c pend) = structOf c :=
        structOf_applyPend c pend
      have hwfAP : wfStore (applyPend c pend) := (wfStore_congr hstructAP).mpr hwf
      have hvAP : validAt (applyPend c pend) uid p :=
        (validAt_congr hstructAP uid p).mpr hvp
      have hMAP : monthFails (applyPend c pend) uid p.2 = false := by
        rw [monthFails_congr hstructAP uid p.2]
        exact hMf
      have hstructPO : structOf (performOk uid now reason (applyPend c pend) p) =
          structOf c :=
        (structOf_performOk uid now reason (applyPend c pend) p).trans hstructAP
      have hwf' : wfStore (performOk uid now reason (applyPend c pend) p) :=
        (wfStore_congr hstructPO).mpr hwf
      have hv' : ∀ q ∈ rest, validAt (performOk uid now reason (applyPend c pend) p) uid q :=
        fun q hq => (validAt_congr hstructPO uid q).mpr (hvrest q hq)
      have hMcongr : ∀ ym : YM,
          monthFails (performOk uid now reason (applyPend c pend) p) uid ym =
            monthFails c uid ym :=
        fun ym => monthFails_congr hstructPO uid ym
      obtain ⟨ihA, ihE, ihE', ihB, ihC, ihD, ihD0, ihF, ihG⟩ :=
        ih (performOk uid now reason (applyPend c pend) p) none hwf' hv' hpair'
          (fun f hf => Option.noConfusion hf)
      have hEp : ∀ bid, (∀ q ∈ rest, q.1 ≠ bid) →
          getBudget (pureWalk uid now reason
            (performOk uid now reason (applyPend c pend) p) none rest) bid =
          getBudget (performOk uid now reason (applyPend c pend) p) bid :=
        fun bid hr => ihE bid hr (fun f hf => Option.noConfusion hf)
      refine ⟨ihA.trans hstructPO, ?_, ?_, ?_, ?_, ?_, ?_, ?_, ?_⟩
      · intro bid hLne hpendne
        rw [hEp bid (fun q hq => hLne q (List.mem_cons_of_mem p hq)),
          getBudget_performOk_ne uid now reason (applyPend c pend) p bid hwfAP
            hvAP (Ne.symm (hLne p (List.mem_cons_self p rest))),
          getBudget_applyPend_ne c pend bid hpendne]
      · intro bid hLne
        rw [ihE' bid (fun q hq => hLne q (List.mem_cons_of_mem p hq)),
          getBudget_performOk_ne uid now reason (applyPend c pend) p bid hwfAP
            hvAP (Ne.symm (hLne p (List.mem_cons_self p rest))),
          catsOf_getBudget_applyPend c pend bid]
      · intro q hq hqM
        rcases List.mem_cons.mp hq with rfl | hq'
        · obtain ⟨B, hgB, hgPO⟩ :=
            getBudget_performOk_self uid now reason (applyPend c pend) q hwfAP
              hvAP hMAP
          refine ⟨{ B with
              category_limits := B.category_limits.map (blendCB (applyPend c pend) uid q.2),
              rollover_needs_recalc := false,
              rollover_last_calculated := some now }, ?_, rfl, rfl⟩
          rw [hEp q.1 (fun r hr => hidsne r hr), hgPO]
        · have := ihB q hq' (by rw [hMcongr q.2]; exact hqM)
          exact this
      · intro q hq hqM
        rcases List.mem_cons.mp hq with rfl | hq'
        · rw [hqM] at hMf
          exact Bool.noConfusion hMf
        · rw [ihC q hq' (by rw [hMcongr q.2]; exact hqM),
            getBudget_performOk_ne uid now reason (applyPend c pend) p q.1
              hwfAP hvAP (hidsne q hq'),
            catsOf_getBudget_applyPend c pend q.1]
      · intro L₁ K rest' hsplit hKM hnext
        cases L₁ with
        | nil =>
          simp only [List.nil_append, List.cons.injEq] at hsplit
          rw [← hsplit.1] at hKM
          rw [hKM] at hMf
          exact Bool.noConfusion hMf
        | cons a L₁' =>
          simp only [List.cons_append, List.cons.injEq] at hsplit
          refine ihD L₁' K rest' hsplit.2 (by rw [hMcongr K.2]; exact hKM) ?_
          rcases hnext with h | ⟨q, rest'', heq, hqM⟩
          · exact Or.inl h
          · exact Or.inr ⟨q, rest'', heq, by rw [hMcongr q.2]; exact hqM⟩
      · intro f hf hcond b₀ hb₀
        have hfne : ∀ q ∈ p :: rest, q.1 ≠ f := hpendc f hf
        have hgAP : getBudget (applyPend c pend) f =
            some { b₀ with rollover_needs_recalc := true } := by
          rw [hf]
          exact getBudget_applyPend_self c f b₀ hb₀
        refine ⟨{ b₀ with rollover_needs_recalc := true }, ?_, rfl⟩
        rw [hEp f (fun q hq => hfne q (List.mem_cons_of_mem p hq)),
          getBudget_performOk_ne uid now reason (applyPend c pend) p f hwfAP
            hvAP (Ne.symm (hfne p (List.mem_cons_self p rest))), hgAP]
      · intro q hq hqM b' hb' cb hcb
        rcases List.mem_cons.mp hq with rfl | hq'
        · obtain ⟨B, hgB, hgPO⟩ :=
            getBudget_performOk_self uid now reason (applyPend c pend) q hwfAP
              hvAP hMAP
          have hgS : getBudget (pureWalk uid now reason
              (performOk uid now reason (applyPend c pend) q) none rest) q.1 =
              some { B with
                category_limits :=
                  B.category_limits.map (blendCB (applyPend c pend) uid q.2),
                rollover_needs_recalc := false,
                rollover_last_calculated := some now } := by
            rw [hEp q.1 (fun r hr => hidsne r hr), hgPO]
          have hb'eq : b' = { B with
              category_limits :=
                B.category_limits.map (blendCB (applyPend c pend) uid q.2),
              rollover_needs_recalc := false,
              rollover_last_calculated := some now } :=
            Option.some.inj (hb' ▸ hgS ▸ rfl)
          have hcalcS : calculate_rollover_amount (pureWalk uid now reason
              (performOk uid now reason (applyPend c pend) q) none rest) uid
              cb.category_id q.2 =
              calculate_rollover_amount (applyPend c pend) uid cb.category_id q.2 := by
            rw [ihG cb.category_id q.2 hprevne,
              calculate_performOk uid now reason (applyPend c pend) q
                cb.category_id q.2 hwfAP hvAP
                (fun h => prevMonth_ne q.2 h.symm)]
          rw [hb'eq] at hcb
          simp only [List.mem_map] at hcb
          obtain ⟨cb₀, hcb₀, rfl⟩ := hcb
          obtain ⟨hcid, hsettled⟩ := blendCB_settled (applyPend c pend) uid q.2 cb₀
          constructor
          · show calcIsScalar _ uid (blendCB (applyPend c pend) uid q.2 cb₀).category_id q.2 = false
            rw [hcid]
            unfold calcIsScalar
            rw [show (pureWalk uid now reason
              (performOk uid now reason (applyPend c pend) q) none rest) =
              (pureWalk uid now reason
              (performOk uid now reason (applyPend c pend) q) none rest) from rfl]
            have hcalcS₀ : calculate_rollover_amount (pureWalk uid now reason
                (performOk uid now reason (applyPend c pend) q) none rest) uid
                cb₀.category_id q.2 =
                calculate_rollover_amount (applyPend c pend) uid cb₀.category_id q.2 := by
              rw [ihG cb₀.category_id q.2 hprevne,
                calculate_performOk uid now reason (applyPend c pend) q
                  cb₀.category_id q.2 hwfAP hvAP
                  (fun h => prevMonth_ne q.2 h.symm)]
            rw [hcalcS₀]
            have : calcIsScalar (applyPend c pend) uid cb₀.category_id q.2 = false := by
              unfold monthFails at hMAP
              cases hfbAP : findBudget (applyPend c pend) uid q.2 with
              | none =>
                obtain ⟨B₂, hfb₂, _, _, _, _⟩ := findBudget_of_validAt hwfAP hvAP
                rw [hfb₂] at hfbAP
                exact Option.noConfusion hfbAP
              | some B₂ =>
                rw [hfbAP] at hMAP
                obtain ⟨hgB₂mem, hgB₂id⟩ := getBudget_id hgB
                obtain ⟨hfb₂mem, _, _⟩ := mem_of_find?_budget hfbAP
                have hidB₂ : B₂.id = q.1 := by
                  obtain ⟨B₃, hfb₃, _, hid₃, _, _⟩ := findBudget_of_validAt hwfAP hvAP
                  rw [hfb₃] at hfbAP
                  rw [← Option.some.inj hfbAP]
                  exact hid₃
                have hBB : B₂ = B :=
                  budget_unique_id hwfAP.1 hfb₂mem hgB₂mem (by rw [hidB₂, hgB₂id])
                rw [hBB] at hMAP
                have := List.any_eq_false.mp hMAP cb₀ hcb₀
                simpa using this
            unfold calcIsScalar at this
            cases hc : calculate_rollover_amount (applyPend c pend) uid cb₀.category_id q.2 with
            | scalar v => rw [hc] at this; exact Bool.noConfusion this
            | tuple r a0 b0 c0 d0 => rfl
          · show |calcNew _ uid (blendCB (applyPend c pend) uid q.2 cb₀).category_id q.2 -
              (blendCB (applyPend c pend) uid q.2 cb₀).rollover_amount.getD 0| ≤ 1 / 100
            rw [hcid]
            have hcalcS₀ : calculate_rollover_amount (pureWalk uid now reason
                (performOk uid now reason (applyPend c pend) q) none rest) uid
                cb₀.category_id q.2 =
                calculate_rollover_amount (applyPend c pend) uid cb₀.category_id q.2 := by
              rw [ihG cb₀.category_id q.2 hprevne,
                calculate_performOk uid now reason (applyPend c pend) q
                  cb₀.category_id q.2 hwfAP hvAP
                  (fun h => prevMonth_ne q.2 h.symm)]
            have hNewEq : calcNew (pureWalk uid now reason
                (performOk uid now reason (applyPend c pend) q) none rest) uid
                cb₀.category_id q.2 =
                calcNew (applyPend c pend) uid cb₀.category_id q.2 := by
              unfold calcNew
              rw [hcalcS₀]
            rw [hNewEq]
            exact hsettled
        · exact ihF q hq' (by rw [hMcongr q.2]; exact hqM) b' hb' cb hcb
      · intro cid ym₀ hne
        rw [ihG cid ym₀ (fun q hq => hne q (List.mem_cons_of_mem p hq)),
          calculate_performOk uid now reason (applyPend c pend) p cid ym₀ hwfAP
            hvAP (hne p (List.mem_cons_self p rest)),
          calculate_applyPend c pend uid cid ym₀]

/-! ## Claim C4 — failure isolation in the chain walk -/

theorem chainList_strict (s : Store) (uid : String) (changed : YM)
    (hwf : wfStore s) :
    (chainList s uid changed).Pairwise fun a b => ymKey a.2 < ymKey b.2 := by
  unfold chainList
  refine sortByYm_strict _ ?_ ?_
  case refine_2 =>
    intro p hp
    rcases List.mem_map.mp hp with ⟨b, hb, rfl⟩
    exact hwf.2.2 b (List.mem_of_mem_filter hb)
  have hpair : (s.budgets.filter fun b =>
      b.user_id == uid && ymLtB changed b.year_month).Pairwise
      (fun a b => a.user_id = b.user_id → a.year_month ≠ b.year_month) :=
    hwf.2.1.sublist (List.filter_sublist _)
  have : (s.budgets.filter fun b =>
      b.user_id == uid && ymLtB changed b.year_month).Pairwise
      (fun a b => a.year_month ≠ b.year_month) := by
    refine List.Pairwise.imp_of_mem ?_ hpair
    intro a b ha hb h
    have hua : a.user_id = uid := by
      have := (List.mem_filter.mp ha).2
      simp only [Bool.and_eq_true, beq_iff_eq] at this
      exact this.1
    have hub : b.user_id = uid := by
      have := (List.mem_filter.mp hb).2
      simp only [Bool.and_eq_true, beq_iff_eq] at this
      exact this.1
    exact h (hua.trans hub.symm)
  exact (List.pairwise_map).mpr (this.imp fun h => h)

/-- Two consecutive months (February and March 2024) that both fail to
recompute, because neither month's predecessor carries the category: the
base-case `TypeError` of C5 fires in both. -/
def twoFailStore : Store :=
  { budgets :=
      [⟨2, "u", ⟨2024, 2⟩, false, none, [⟨"c1", 100, true, some 0⟩]⟩,
       ⟨3, "u", ⟨2024, 3⟩, false, none, [⟨"c2", 100, true, some 0⟩]⟩],
    transactions := [],
    rollover_calculations := [] }

/-- C4 (counterexample): when the month right after a failed month K also
fails, K does NOT end with `rollover_needs_recalc = true`. K's flag is
re-set only on the session (`db.flush()`, uncommitted); the next month's
failure handler calls `db.rollback()`, which discards K's pending flag
before anything commits it, so K's flag reverts to its committed value
(`false` here) while only the last failed month keeps `true`. -/
theorem chain_failed_month_flag_lost :
    chainList twoFailStore "u" ⟨2024, 1⟩ =
      [(2, (⟨2024, 2⟩ : YM)), (3, (⟨2024, 3⟩ : YM))] ∧
    monthFails twoFailStore "u" ⟨2024, 2⟩ = true ∧
    monthFails twoFailStore "u" ⟨2024, 3⟩ = true ∧
    (getBudget (invalidate_rollover_chain twoFailStore "u" ⟨2024, 1⟩ 7
      "transaction_change") 2).map (·.rollover_needs_recalc) = some false ∧
    (getBudget (invalidate_rollover_chain twoFailStore "u" ⟨2024, 1⟩ 7
      "transaction_change") 3).map (·.rollover_needs_recalc) = some true := by
  refine ⟨rfl, rfl, rfl, rfl, rfl⟩

/-- C4 (amended): if recomputing month K fails during the chain walk, K's
stored category rollover amounts are unchanged (its session changes are
rolled back) and the walk still continues — every month in the chain that
recomputes successfully ends recalculated (`rollover_needs_recalc = false`,
`rollover_last_calculated` freshly set). However K ends with
`rollover_needs_recalc = true` only when no month follows K in the chain or
the month immediately after K succeeds; if the next month also fails, its
rollback discards K's uncommitted flag (see the counterexample). -/
theorem chain_failure_isolation (s : Store) (uid : String) (changed : YM)
    (now : ℤ) (reason : String) (hwf : wfStore s)
    (L₁ : List (Nat × YM)) (K : Nat × YM) (rest : List (Nat × YM))
    (hsplit : chainList s uid changed = L₁ ++ K :: rest)
    (hKfail : monthFails s uid K.2 = true) :
    catsOf (getBudget (invalidate_rollover_chain s uid changed now reason) K.1) =
      catsOf (getBudget s K.1) ∧
    (∀ q ∈ chainList s uid changed, monthFails s uid q.2 = false →
      ∃ b', getBudget (invalidate_rollover_chain s uid changed now reason) q.1 =
          some b' ∧
        b'.rollover_needs_recalc = false ∧
        b'.rollover_last_calculated = some now) ∧
    ((rest = [] ∨ ∃ q rest', rest = q :: rest' ∧ monthFails s uid q.2 = false) →
      ∃ b', getBudget (invalidate_rollover_chain s uid changed now reason) K.1 =
          some b' ∧
        b'.rollover_needs_recalc = true) := by
  rw [invalidate_chain_eq_pureWalk s uid changed now reason hwf]
  obtain ⟨_, _, _, hB, hC, hD, _, _, _⟩ :=
    pureWalk_master uid now reason (chainList s uid changed) s none hwf
      (chainList_validAt s uid changed) (chainList_strict s uid changed hwf)
      (fun f hf => Option.noConfusion hf)
  have hKmem : K ∈ chainList s uid changed := by
    rw [hsplit]
    exact List.mem_append.mpr (Or.inr (List.mem_cons_self K rest))
  exact ⟨hC K hKmem hKfail, hB, hD L₁ K rest hsplit hKfail⟩

theorem noPrevMonthStore_wf : wfStore noPrevMonthStore := by
  refine ⟨by decide, ?_, by decide⟩
  simp [noPrevMonthStore, List.pairwise_cons]

/-- Witness for C4 at the one-month base-case store: February 2024 with no
January budget fails to recompute, is the last chain element, and ends with
its flag set and its stored category rows untouched. -/
theorem chain_failure_isolation_witness :
    wfStore noPrevMonthStore ∧
    chainList noPrevMonthStore "u" ⟨2024, 1⟩ =
      [] ++ (1, (⟨2024, 2⟩ : YM)) :: [] ∧
    monthFails noPrevMonthStore "u" ⟨2024, 2⟩ = true ∧
    (catsOf (getBudget (invalidate_rollover_chain noPrevMonthStore "u"
        ⟨2024, 1⟩ 7 "transaction_change") 1) =
      catsOf (getBudget noPrevMonthStore 1) ∧
    (∀ q ∈ chainList noPrevMonthStore "u" ⟨2024, 1⟩,
      monthFails noPrevMonthStore "u" q.2 = false →
      ∃ b', getBudget (invalidate_rollover_chain noPrevMonthStore "u"
          ⟨2024, 1⟩ 7 "transaction_change") q.1 = some b' ∧
        b'.rollover_needs_recalc = false ∧
        b'.rollover_last_calculated = some 7) ∧
    (([] = ([] : List (Nat × YM)) ∨ ∃ q rest',
        ([] : List (Nat × YM)) = q :: rest' ∧
        monthFails noPrevMonthStore "u" q.2 = false) →
      ∃ b', getBudget (invalidate_rollover_chain noPrevMonthStore "u"
          ⟨2024, 1⟩ 7 "transaction_change") 1 = some b' ∧
        b'.rollover_needs_recalc = true)) :=
  ⟨noPrevMonthStore_wf, rfl, rfl,
    chain_failure_isolation noPrevMonthStore "u" ⟨2024, 1⟩ 7
      "transaction_change" noPrevMonthStore_wf [] (1, ⟨2024, 2⟩) [] rfl rfl⟩

/-! ## Claim C7 — idempotence of the chain walk

Everything `calculate_rollover_amount` (and every read of the walk other
than the two flag columns) depends on is captured by `projCalc`: two stores
related by `calcEq` are indistinguishable to the rollover arithmetic. -/

/-- Projection of a budget row to the fields the rollover arithmetic reads. -/
def projCalc (b : Budget) : Nat × String × YM × List CategoryBudget :=
  (b.id, b.user_id, b.year_month, b.category_limits)

/-- Two stores agreeing on ids, keys, category rows and transactions
(differing at most in flags and history). -/
def calcEq (s₁ s₂ : Store) : Prop :=
  s₁.budgets.map projCalc = s₂.budgets.map projCalc ∧
    s₁.transactions = s₂.transactions

theorem calcEq_trans {s₁ s₂ s₃ : Store} (h₁ : calcEq s₁ s₂)
    (h₂ : calcEq s₂ s₃) : calcEq s₁ s₃ :=
  ⟨h₁.1.trans h₂.1, h₁.2.trans h₂.2⟩

theorem structOf_of_calcEq {s₁ s₂ : Store} (h : calcEq s₁ s₂) :
    structOf s₁ = structOf s₂ := by
  rw [structOf_eq_iff]
  refine ⟨?_, h.2⟩
  have := congrArg (List.map fun x : Nat × String × YM × List CategoryBudget =>
    (x.1, x.2.1, x.2.2.1, x.2.2.2.map (·.category_id))) h.1
  rw [List.map_map, List.map_map] at this
  exact this

theorem findBudget_congr_calcEq {s₁ s₂ : Store} (h : calcEq s₁ s₂)
    (uid : String) (ym : YM) :
    (findBudget s₁ uid ym).map projCalc =
      (findBudget s₂ uid ym).map projCalc :=
  find?_congr_proj projCalc (fun x => x.2.1 == uid && x.2.2.1 == ym)
    s₁.budgets s₂.budgets h.1

theorem calculate_congr_calcEq {s₁ s₂ : Store} (h : calcEq s₁ s₂)
    (uid cid : String) (ym : YM) :
    calculate_rollover_amount s₁ uid cid ym =
      calculate_rollover_amount s₂ uid cid ym := by
  have hfb := findBudget_congr_calcEq h uid (prevMonth ym)
  cases hf₂ : findBudget s₂ uid (prevMonth ym) with
  | none =>
    rw [hf₂] at hfb
    have hf₁ : findBudget s₁ uid (prevMonth ym) = none :=
      Option.map_eq_none'.mp hfb
    simp only [calculate_rollover_amount, hf₁, hf₂]
  | some B₂ =>
    rw [hf₂] at hfb
    cases hf₁ : findBudget s₁ uid (prevMonth ym) with
    | none => rw [hf₁] at hfb; exact Option.noConfusion hfb
    | some B₁ =>
      rw [hf₁] at hfb
      have hproj : projCalc B₁ = projCalc B₂ := Option.some.inj hfb
      have hcats : B₁.category_limits = B₂.category_limits :=
        congrArg (fun x => x.2.2.2) hproj
      simp only [calculate_rollover_amount, hf₁, hf₂]
      rw [hcats, h.2]

theorem calcNew_congr_calcEq {s₁ s₂ : Store} (h : calcEq s₁ s₂)
    (uid cid : String) (ym : YM) :
    calcNew s₁ uid cid ym = calcNew s₂ uid cid ym := by
  unfold calcNew
  rw [calculate_congr_calcEq h uid cid ym]

theorem blendCB_congr_calcEq {s₁ s₂ : Store} (h : calcEq s₁ s₂)
    (uid : String) (ym : YM) (cb : CategoryBudget) :
    blendCB s₁ uid ym cb = blendCB s₂ uid ym cb := by
  unfold blendCB
  rw [calcNew_congr_calcEq h uid cb.category_id ym]

theorem getBudget_congr_calcEq {s₁ s₂ : Store} (h : calcEq s₁ s₂)
    (bid : Nat) :
    (getBudget s₁ bid).map projCalc = (getBudget s₂ bid).map projCalc :=
  find?_congr_proj projCalc (fun x => x.1 == bid) s₁.budgets s₂.budgets h.1

theorem catsOf_congr_calcEq {s₁ s₂ : Store} (h : calcEq s₁ s₂) (bid : Nat) :
    catsOf (getBudget s₁ bid) = catsOf (getBudget s₂ bid) := by
  have hg := getBudget_congr_calcEq h bid
  cases hg₁ : getBudget s₁ bid with
  | none =>
    rw [hg₁] at hg
    have hg₂ : getBudget s₂ bid = none :=
      Option.map_eq_none'.mp hg.symm
    rw [hg₂]
  | some b₁ =>
    rw [hg₁] at hg
    cases hg₂ : getBudget s₂ bid with
    | none => rw [hg₂] at hg; exact Option.noConfusion hg
    | some b₂ =>
      rw [hg₂] at hg
      have hproj : projCalc b₁ = projCalc b₂ := Option.some.inj hg
      have hcats : b₁.category_limits = b₂.category_limits :=
        congrArg (fun x => x.2.2.2) hproj
      simp only [catsOf, Option.map_some']
      rw [hcats]

/-- A store whose blends at a month are no-ops transfers that property
along `calcEq`. -/
theorem noop_transfer {s₁ s₂ : Store} (h : calcEq s₁ s₂) (uid : String)
    (p : Nat × YM)
    (hn : ∀ B, getBudget s₂ p.1 = some B →
      ∀ cb ∈ B.category_limits, blendCB s₂ uid p.2 cb = cb) :
    ∀ B, getBudget s₁ p.1 = some B →
      ∀ cb ∈ B.category_limits, blendCB s₁ uid p.2 cb = cb := by
  intro B hB cb hcb
  have hg := getBudget_congr_calcEq h p.1
  rw [hB] at hg
  cases hg₂ : getBudget s₂ p.1 with
  | none => rw [hg₂] at hg; exact Option.noConfusion hg
  | some B₂ =>
    rw [hg₂] at hg
    have hproj : projCalc B = projCalc B₂ := Option.some.inj hg
    have hcats : B.category_limits = B₂.category_limits :=
      congrArg (fun x => x.2.2.2) hproj
    rw [blendCB_congr_calcEq h uid p.2 cb]
    exact hn B₂ hg₂ cb (hcats ▸ hcb)

theorem calcEq_mapBudget (s : Store) (bid : Nat) (f : Budget → Budget)
    (hf : ∀ b, projCalc (f b) = projCalc b) :
    calcEq (mapBudget s bid f) s := by
  refine ⟨?_, mapBudget_transactions s bid f⟩
  rw [mapBudget_budgets, List.map_map]
  refine List.map_congr_left ?_
  intro b _
  show projCalc (if b.id == bid then f b else b) = projCalc b
  by_cases hb : b.id == bid
  · rw [if_pos hb, hf b]
  · rw [if_neg hb]

theorem calcEq_setBudgetFlags (s : Store) (bid : Nat) (now : ℤ) (flag : Bool) :
    calcEq (setBudgetFlags s bid now flag) s :=
  calcEq_mapBudget s bid _ (fun _ => rfl)

theorem calcEq_applyPend (s : Store) (pend : Option Nat) :
    calcEq (applyPend s pend) s := by
  cases pend with
  | none => exact ⟨rfl, rfl⟩
  | some f => exact calcEq_mapBudget s f _ (fun _ => rfl)

/-- A successful per-month recomputation whose blends are all no-ops leaves
ids, keys, category rows and transactions untouched (only flags and
history move). -/
theorem performOk_calcEq (uid : String) (now : ℤ) (reason : String)
    (s : Store) (p : Nat × YM) (hwf : wfStore s) (hv : validAt s uid p)
    (hnoop : ∀ B, getBudget s p.1 = some B →
      ∀ cb ∈ B.category_limits, blendCB s uid p.2 cb = cb) :
    calcEq (performOk uid now reason s p) s := by
  cases hfb : findBudget s uid p.2 with
  | none =>
    simp only [performOk, hfb]
    exact ⟨rfl, rfl⟩
  | some B =>
    cases hpc : processCats uid p.2 p.1 reason s B.category_limits 0 with
    | error u =>
      simp only [performOk, hfb, hpc]
      exact ⟨rfl, rfl⟩
    | ok s₂ =>
      simp only [performOk, hfb, hpc]
      obtain ⟨B', hfb', hBmem, hBid, _, _⟩ := findBudget_of_validAt hwf hv
      have hBB : B = B' := by
        rw [hfb] at hfb'
        exact Option.some.inj hfb'
      have hgB : getBudget s p.1 = some B := by
        rw [hBB]
        exact getBudget_of_mem hwf.1 hBmem hBid
      have hsep : sepStore s p.1 uid (prevMonth p.2) := sepStore_of_wf hwf hv
      obtain ⟨G, H, hshape, _, halign⟩ :=
        processCats_ok_shape uid p.2 p.1 reason B.category_limits 0 s s₂ hsep hpc
      have hGB : G B.category_limits = B.category_limits := by
        have h0 := halign [] rfl
        simp only [List.nil_append] at h0
        rw [h0]
        exact Eq.trans
          (List.map_congr_left fun cb hcb => hnoop B hgB cb hcb)
          (List.map_id _)
      refine calcEq_trans (calcEq_setBudgetFlags s₂ p.1 now false) ?_
      rw [hshape]
      refine ⟨?_, rfl⟩
      rw [List.map_map]
      refine List.map_congr_left ?_
      intro b hb
      show projCalc (if b.id == p.1 then
        { b with category_limits := G b.category_limits } else b) = projCalc b
      by_cases hbid : b.id == p.1
      · rw [if_pos hbid]
        have hbB : b = B := by
          rw [hBB]
          refine budget_unique_id hwf.1 hb hBmem ?_
          have h1 : b.id = p.1 := by simpa using hbid
          rw [h1, hBid]
        rw [hbB, hGB]
      · rw [if_neg hbid]

/-- STABLE WALK: started on a store where every successfully recomputable
month of the list is already settled (all its blends are no-ops), the chain
walk changes nothing the rollover arithmetic can see — it only rewrites
flags and appends history. -/
theorem pureWalk_stable (uid : String) (now : ℤ) (reason : String) :
    ∀ (L : List (Nat × YM)) (c : Store) (pend : Option Nat),
      wfStore c → (∀ p ∈ L, validAt c uid p) →
      (∀ p ∈ L, monthFails c uid p.2 = false →
        ∀ B, getBudget c p.1 = some B →
          ∀ cb ∈ B.category_limits, blendCB c uid p.2 cb = cb) →
      calcEq (pureWalk uid now reason c pend L) c := by
  intro L
  induction L with
  | nil => intro c pend _ _ _; exact calcEq_applyPend c pend
  | cons p rest ih =>
    intro c pend hwf hv hnoop
    by_cases hM : monthFails c uid p.2 = true
    · simp only [pureWalk, hM, if_true]
      exact ih c (some p.1) hwf
        (fun q hq => hv q (List.mem_cons_of_mem p hq))
        (fun q hq => hnoop q (List.mem_cons_of_mem p hq))
    · have hMf : monthFails c uid p.2 = false := by
        cases hres : monthFails c uid p.2 with
        | false => rfl
        | true => exact absurd hres hM
      simp only [pureWalk, hMf, Bool.false_eq_true, if_false]
      have hAP : calcEq (applyPend c pend) c := calcEq_applyPend c pend
      have hstructAP : structOf (applyPend c pend) = structOf c :=
        structOf_applyPend c pend
      have hwfAP : wfStore (applyPend c pend) :=
        (wfStore_congr hstructAP).mpr hwf
      have hvAP : validAt (applyPend c pend) uid p :=
        (validAt_congr hstructAP uid p).mpr (hv p (List.mem_cons_self p rest))
      have hPO : calcEq (performOk uid now reason (applyPend c pend) p)
          (applyPend c pend) :=
        performOk_calcEq uid now reason (applyPend c pend) p hwfAP hvAP
          (noop_transfer hAP uid p (hnoop p (List.mem_cons_self p rest) hMf))
      have hPOc : calcEq (performOk uid now reason (applyPend c pend) p) c :=
        calcEq_trans hPO hAP
      have hstructPO : structOf (performOk uid now reason (applyPend c pend) p) =
          structOf c := structOf_of_calcEq hPOc
      refine calcEq_trans (ih (performOk uid now reason (applyPend c pend) p)
        none ((wfStore_congr hstructPO).mpr hwf)
        (fun q hq => (validAt_congr hstructPO uid q).mpr
          (hv q (List.mem_cons_of_mem p hq)))
        (fun q hq hMq => noop_transfer hPOc uid q
          (hnoop q (List.mem_cons_of_mem p hq)
            (by rw [← monthFails_congr hstructPO uid q.2]; exact hMq)))) hPOc

theorem filterMap_congr_proj {β γ : Type} (proj : Budget → β) (q : β → Bool)
    (f : β → γ) :
    ∀ l₁ l₂ : List Budget, l₁.map proj = l₂.map proj →
      ((l₁.filter fun b => q (proj b)).map fun b => f (proj b)) =
        ((l₂.filter fun b => q (proj b)).map fun b => f (proj b)) := by
  intro l₁
  induction l₁ with
  | nil =>
    intro l₂ h
    rw [List.eq_nil_of_map_eq_nil h.symm]
  | cons a l ih =>
    intro l₂ h
    cases l₂ with
    | nil => simp at h
    | cons b l₂' =>
      simp only [List.map_cons, List.cons.injEq] at h
      obtain ⟨hab, hl⟩ := h
      simp only [List.filter_cons]
      have hq : q (proj b) = q (proj a) := by rw [hab]
      rw [hq]
      cases hqa : q (proj a) with
      | false =>
        rw [if_neg Bool.false_ne_true, if_neg Bool.false_ne_true]
        exact ih l₂' hl
      | true =>
        rw [if_pos rfl, if_pos rfl]
        simp only [List.map_cons]
        rw [hab, ih l₂' hl]

/-- The walk's query reads only the structural skeleton, so two walks from
structurally equal stores fetch the same `(id, month)` list. -/
theorem chainList_congr {s₁ s₂ : Store} (h : structOf s₁ = structOf s₂)
    (uid : String) (changed : YM) :
    chainList s₁ uid changed = chainList s₂ uid changed := by
  have hb := ((structOf_eq_iff s₁ s₂).mp h).1
  unfold chainList
  exact congrArg sortByYm
    (filterMap_congr_proj projB
      (fun x => x.2.1 == uid && ymLtB changed x.2.2.1)
      (fun x => (x.1, x.2.2.1)) s₁.budgets s₂.budgets hb)

/-- C7: the chain walk is idempotent on everything it stores outside the
two flag columns — running `invalidate_rollover_chain` twice in immediate
succession leaves every budget's `category_limits` rows (in particular
every `CategoryBudget.rollover_amount`) exactly as the first run left
them. After the first run every successfully recomputed month is settled
within the 0.01 update threshold, every failing month recomputes to the
same failure, and so the second run's blends are all no-ops. -/
theorem chain_recalc_idempotent (s : Store) (uid : String) (changed : YM)
    (now : ℤ) (reason : String) (hwf : wfStore s) :
    ∀ bid : Nat,
      catsOf (getBudget (invalidate_rollover_chain
        (invalidate_rollover_chain s uid changed now reason)
        uid changed now reason) bid) =
      catsOf (getBudget
        (invalidate_rollover_chain s uid changed now reason) bid) := by
  intro bid
  obtain ⟨hA, _, _, _, _, _, _, hF, _⟩ :=
    pureWalk_master uid now reason (chainList s uid changed) s none hwf
      (chainList_validAt s uid changed) (chainList_strict s uid changed hwf)
      (fun f hf => Option.noConfusion hf)
  rw [invalidate_chain_eq_pureWalk s uid changed now reason hwf]
  have hwfW : wfStore (pureWalk uid now reason s none (chainList s uid changed)) :=
    (wfStore_congr hA).mpr hwf
  rw [invalidate_chain_eq_pureWalk
    (pureWalk uid now reason s none (chainList s uid changed)) uid changed now
    reason hwfW]
  rw [chainList_congr hA uid changed]
  refine catsOf_congr_calcEq ?_ bid
  refine pureWalk_stable uid now reason (chainList s uid changed)
    (pureWalk uid now reason s none (chainList s uid changed)) none hwfW
    (fun p hp => (validAt_congr hA uid p).mpr (chainList_validAt s uid changed p hp))
    ?_
  intro p hp hMW B hB cb hcb
  have hMf : monthFails s uid p.2 = false := by
    rw [← monthFails_congr hA uid p.2]
    exact hMW
  obtain ⟨_, hclose⟩ := hF p hp hMf B hB cb hcb
  unfold blendCB
  rw [if_neg (not_lt_of_le hclose)]

/-- Witness for C7 at the concrete two-month store: rerunning the walk
changes no stored category row. -/
theorem chain_recalc_idempotent_witness :
    wfStore twoMonthStore ∧
    ∀ bid : Nat,
      catsOf (getBudget (invalidate_rollover_chain
        (invalidate_rollover_chain twoMonthStore "u" ⟨2023, 12⟩ 7
          "transaction_change")
        "u" ⟨2023, 12⟩ 7 "transaction_change") bid) =
      catsOf (getBudget
        (invalidate_rollover_chain twoMonthStore "u" ⟨2023, 12⟩ 7
          "transaction_change") bid) :=
  ⟨twoMonthStore_wf, chain_recalc_idempotent twoMonthStore "u" ⟨2023, 12⟩ 7
    "transaction_change" twoMonthStore_wf⟩

/-! ## Claim C10 — the chain walk never raises to its caller -/

/-- C10: `invalidate_rollover_chain` always hands a store back to its
caller — the walk's body never escapes with an exception, because every
per-month recalculation failure is caught inside the loop (and the outer
`try/except` would swallow anything else). The last three conjuncts show
the guarantee is not vacuous: on the base-case store the only chained
month genuinely fails to recompute (the C5 `TypeError`), that month is in
the walked list, and the body still completes normally. -/
theorem invalidate_chain_never_raises :
    (∀ (s : Store) (uid : String) (changed : YM) (now : ℤ) (reason : String),
      ∃ s', invalidate_rollover_chain_body s uid changed now reason = .ok s' ∧
        invalidate_rollover_chain s uid changed now reason = s') ∧
    monthFails noPrevMonthStore "u" ⟨2024, 2⟩ = true ∧
    (1, (⟨2024, 2⟩ : YM)) ∈ chainList noPrevMonthStore "u" ⟨2024, 1⟩ ∧
    (invalidate_rollover_chain_body noPrevMonthStore "u" ⟨2024, 1⟩ 7
      "transaction_change").isOk = true := by
  refine ⟨?_, rfl, ?_, rfl⟩
  · intro s uid changed now reason
    exact ⟨_, rfl, rfl⟩
  · have h : chainList noPrevMonthStore "u" ⟨2024, 1⟩ =
        [(1, ⟨2024, 2⟩)] := rfl
    rw [h]
    exact List.mem_singleton.mpr rfl

end FinanceTracker
